import Mathlib

/-!
A shallow embedding of the `cicada-vector` retrieval engine and proofs about it.

The embedding follows the Python sources:
* `JVal`, `Line`, `LoadState`, `loadLine`, `loadFrom`, `loadFile`, `VectorDB`
  model `src/cicada_vector/db.py` (JSONL persistence, `_load`, `add`,
  `persist`, `_search_python`);
* `scoreBoostingMerge` models `Store._score_boosting_merge` in
  `src/cicada_vector/hybrid.py`;
* `findAllWindows`, `findBestChunksForFile`, `processFile`, `ragSearch`
  model `VectorIndex` in `src/cicada_vector/rag.py`;
* `indexRun` models `DirectoryIndexer.index_directory` in
  `src/cicada_vector/indexer.py`, and `gitIndexRun` models the commit loop of
  `GitIndexer.index_repository` in `src/cicada_vector/git_indexer.py`.

Floating point numbers are modelled by `ℚ`; `math.sqrt` is an abstract
parameter `sq : ℚ → ℚ` assumed to send `0` to `0` and positives to positives,
which is all the proofs need.  Python's stable `list.sort` is modelled by
`List.insertionSort` (any two stable sorts of the same key agree).
-/

/-- JSON-like values, modelling the Python/JSON data handled by the store. -/
inductive JVal : Type
  | null : JVal
  | bool (b : Bool) : JVal
  | num (q : ℚ) : JVal
  | str (s : String) : JVal
  | arr (elems : List JVal) : JVal
  | obj (fields : List (String × JVal)) : JVal

/-- Key access on a JSON value: `some v` models a successful `record[key]` on a
JSON object containing the key; `none` models the `KeyError` (missing key) or
`TypeError` (non-object) that Python raises. -/
def JVal.getKey : JVal → String → Option JVal
  | .obj fields, k => (fields.find? (fun p => p.1 == k)).map (·.2)
  | _, _ => none

/-- A rational vector as the JSON array written by `json.dumps`. -/
def vecJson (v : List ℚ) : JVal :=
  JVal.arr (v.map JVal.num)

/-- One line of a persisted JSONL vector-store file, as seen by `_load`:
blank, not valid JSON (raises `json.JSONDecodeError`, which `_load` catches),
or a parsed JSON value. -/
inductive Line : Type
  | blank : Line
  | invalid : Line
  | json (j : JVal) : Line

/-- The in-memory lists of `VectorDB` as `_load` fills them, untyped exactly
like Python (a loaded `id` need not be a string). -/
structure LoadState : Type where
  ids : List JVal
  vectors : List JVal
  metadata : List JVal

def emptyLoad : LoadState := ⟨[], [], []⟩

/-- One iteration of the `for line in f` loop of `VectorDB._load`.
Blank lines are skipped, `json.JSONDecodeError` is caught and the line is
skipped; but `record['id']` and `record['vector']` are *not* guarded, so a
line that parses as JSON yet lacks those keys raises (modelled by `.error`),
with `ids` already mutated when only `'vector'` is missing, exactly as in the
source (`ids.append` precedes `vectors.append`). -/
def loadLine (st : LoadState) : Line → Except LoadState LoadState
  | .blank => .ok st
  | .invalid => .ok st
  | .json j =>
    match j.getKey "id" with
    | none => .error st
    | some idv =>
      let st₁ : LoadState := ⟨st.ids ++ [idv], st.vectors, st.metadata⟩
      match j.getKey "vector" with
      | none => .error st₁
      | some vv =>
        .ok ⟨st₁.ids, st₁.vectors ++ [vv],
             st₁.metadata ++ [(j.getKey "meta").getD (JVal.obj [])]⟩

/-- The `for line in f` loop of `VectorDB._load`: an uncaught exception aborts
the whole load. -/
def loadFrom (st : LoadState) : List Line → Except LoadState LoadState
  | [] => .ok st
  | l :: rest =>
    match loadLine st l with
    | .ok st' => loadFrom st' rest
    | .error st' => .error st'

/-- `VectorDB._load` starting from a freshly constructed (empty) store. -/
def loadFile (file : List Line) : Except LoadState LoadState :=
  loadFrom emptyLoad file

/-- The typed in-memory state of `VectorDB` as maintained by `add` (every
`add` call supplies a string id, a float vector and a metadata dict), plus the
backing JSONL file contents and the dirty flag. -/
structure VDB : Type where
  ids : List String
  vectors : List (List ℚ)
  metadata : List JVal
  file : List Line
  dirty : Bool

def emptyVDB : VDB := ⟨[], [], [], [], false⟩

/-- The JSONL record `{'id': .., 'vector': .., 'meta': ..}` written by
`VectorDB.add` and `VectorDB.persist`. -/
def recordLine (id : String) (v : List ℚ) (meta : JVal) : Line :=
  Line.json (JVal.obj [("id", JVal.str id), ("vector", vecJson v), ("meta", meta)])

/-- `VectorDB.add`: append to the three in-memory lists and immediately append
the JSON record to the backing file (write-ahead style).  `meta or {}`
defaults a missing metadata dict to `{}`. -/
def VDB.add (st : VDB) (id : String) (vector : List ℚ) (meta : Option JVal) : VDB :=
  let m := meta.getD (JVal.obj [])
  ⟨st.ids ++ [id], st.vectors ++ [vector], st.metadata ++ [m],
   st.file ++ [recordLine id vector m], true⟩

/-- `VectorDB.persist`: a no-op unless dirty, otherwise rewrite the whole file
from the in-memory state (`for i in range(len(self.ids))`). -/
def VDB.persist (st : VDB) : VDB :=
  if st.dirty then
    ⟨st.ids, st.vectors, st.metadata,
     (List.range st.ids.length).map (fun i =>
       recordLine (st.ids.getD i "") (st.vectors.getD i []) (st.metadata.getD i (JVal.obj []))),
     false⟩
  else st

/-- `sum(x*x for x in v)`. -/
def sumSq (v : List ℚ) : ℚ :=
  (v.map (fun x => x * x)).sum

/-- `sum(q * v for q, v in zip(query, vec))`. -/
def dotQ (q v : List ℚ) : ℚ :=
  (List.zipWith (· * ·) q v).sum

/-- The per-vector score of `VectorDB._search_python`: `0.0` when the stored
vector has magnitude zero, otherwise `dot / (q_mag * v_mag)`; `sq` stands for
`math.sqrt`. -/
def cosScore (sq : ℚ → ℚ) (query : List ℚ) (qMag : ℚ) (vec : List ℚ) : ℚ :=
  let dot := dotQ query vec
  let vMag := sq (sumSq vec)
  if vMag = 0 then 0 else dot / (qMag * vMag)

/-- The `(score, i)` list built by `_search_python` over `enumerate(self.vectors)`. -/
def scoredList (sq : ℚ → ℚ) (st : VDB) (query : List ℚ) : List (ℚ × ℕ) :=
  st.vectors.enum.map (fun p => (cosScore sq query (sq (sumSq query)) p.2, p.1))

/-- Descending order on the score component, as used by
`scores.sort(key=lambda x: x[0], reverse=True)`. -/
def scoreGE (a b : ℚ × ℕ) : Prop := b.1 ≤ a.1

instance : DecidableRel scoreGE := fun a b => inferInstanceAs (Decidable (b.1 ≤ a.1))

/-- The stable descending sort of the scored list. -/
def sortedScores (sq : ℚ → ℚ) (st : VDB) (query : List ℚ) : List (ℚ × ℕ) :=
  (scoredList sq st query).insertionSort scoreGE

/-- Projection of a sorted `(score, idx)` pair to the `(id, score, metadata)`
triple returned by `_search_python`. -/
def entryOf (st : VDB) (p : ℚ × ℕ) : String × ℚ × JVal :=
  (st.ids.getD p.2 "", p.1, st.metadata.getD p.2 (JVal.obj []))

/-- `VectorDB._search_python`: empty on a zero-magnitude query, otherwise the
top `k` of the stable descending sort of all cosine scores. -/
def searchPython (sq : ℚ → ℚ) (st : VDB) (query : List ℚ) (k : ℕ) :
    List (String × ℚ × JVal) :=
  if sq (sumSq query) = 0 then []
  else ((sortedScores sq st query).take k).map (entryOf st)

/-- `VectorDB.search` in the `HAS_NUMPY = False` fallback: short-circuits to
`[]` when the store is empty, then delegates to `_search_python`.  (When
numpy imports, `VectorDB.search` dispatches to `_search_numpy` instead; its
`k ≥ len(scores)` branch is modelled below by `searchNumpyAll`.) -/
def VDB.search (sq : ℚ → ℚ) (st : VDB) (query : List ℚ) (k : ℕ) :
    List (String × ℚ × JVal) :=
  if st.vectors = [] then [] else searchPython sq st query k

/-- The per-vector score of `VectorDB._search_numpy`: instead of a guarded
branch, a zero vector norm is replaced by `1e-10` before dividing
(`v_norms[v_norms == 0] = 1e-10`), so a zero stored vector still scores `0`
because its dot product is `0`. -/
def numpyScore (sq : ℚ → ℚ) (query : List ℚ) (qMag : ℚ) (vec : List ℚ) : ℚ :=
  let vMag := sq (sumSq vec)
  let vMag' := if vMag = 0 then 1 / 10000000000 else vMag
  dotQ query vec / (vMag' * qMag)

/-- The scores array of `_search_numpy`, indexed like `self.vectors`. -/
def numpyScoredList (sq : ℚ → ℚ) (st : VDB) (query : List ℚ) : List (ℚ × ℕ) :=
  st.vectors.enum.map (fun p => (numpyScore sq query (sq (sumSq query)) p.2, p.1))

/-- Ascending order on the score component, the order `np.argsort` sorts by. -/
def scoreLE (a b : ℚ × ℕ) : Prop := a.1 ≤ b.1

instance : DecidableRel scoreLE := fun a b => inferInstanceAs (Decidable (a.1 ≤ b.1))

/-- The `k ≥ len(scores)` branch of `VectorDB._search_numpy`:
`top_indices = np.argsort(scores)[::-1]`, then every index is emitted.
numpy's default introsort falls back to a stable insertion sort on short
arrays, so `argsort` is modelled as the stable ascending sort — the reading
most favourable to an insertion-order tie-break — and the `[::-1]` reversal
then lists equal scores in *reverse* insertion order. -/
def searchNumpyAll (sq : ℚ → ℚ) (st : VDB) (query : List ℚ) :
    List (String × ℚ × JVal) :=
  if sq (sumSq query) = 0 then []
  else (((numpyScoredList sq st query).insertionSort scoreLE).reverse).map (entryOf st)

/-- The score `_search_numpy` computes for the `i`-th stored vector. -/
def numpyScoreAt (sq : ℚ → ℚ) (st : VDB) (query : List ℚ) (i : ℕ) : ℚ :=
  numpyScore sq query (sq (sumSq query)) (st.vectors.getD i [])

/-- Python `dict` assignment `d[k] = v` on an association list that keeps keys
unique: update in place when the key exists, append otherwise. -/
def dictInsert (d : List (String × α)) (k : String) (v : α) : List (String × α) :=
  if d.any (fun p => p.1 == k) then
    d.map (fun p => if p.1 == k then (k, v) else p)
  else d ++ [(k, v)]

/-- Python `d[k]` / `k in d` lookup on the association list. -/
def dictLookup (d : List (String × α)) (k : String) : Option α :=
  (d.find? (fun p => p.1 == k)).map (·.2)

/-- Accumulator of the keyword-only loop of `_score_boosting_merge`:
the `final_scores` and `meta_lookup` dicts. -/
abbrev MergeAcc : Type := List (String × ℚ) × List (String × JVal)

/-- One iteration of step 3 of `Store._score_boosting_merge`: a keyword id not
yet scored gets `max(0.4, 0.5 - keyword_results.index(doc_id) * 0.02)` and its
metadata is fetched from the vector store by `ids.index` (empty dict on
`ValueError`). -/
def keywordOnlyStep (keywordResults : List String) (dbIds : List String)
    (dbMeta : List JVal) (acc : MergeAcc) (docId : String) : MergeAcc :=
  if (dictLookup acc.1 docId).isSome then acc
  else
    let baseScore : ℚ := 1/2 - (keywordResults.indexOf docId : ℚ) * (1/50)
    let fs := dictInsert acc.1 docId (max (2/5) baseScore)
    let ml :=
      match dbIds.indexOf? docId with
      | some i => dictInsert acc.2 docId (dbMeta.getD i (JVal.obj []))
      | none => dictInsert acc.2 docId (JVal.obj [])
    (fs, ml)

/-- Descending order on the score of a `final_scores` entry, as used by
`sorted(final_scores.keys(), key=lambda x: final_scores[x], reverse=True)`. -/
def entryGE (a b : String × ℚ) : Prop := b.2 ≤ a.2

instance : DecidableRel entryGE := fun a b => inferInstanceAs (Decidable (b.2 ≤ a.2))

/-- `Store._score_boosting_merge` from `hybrid.py`, split into its four
steps.  Step 1 builds the `final_scores` dict from the vector results. -/
def mergeScores₁ (vectorResults : List (String × ℚ × JVal)) : List (String × ℚ) :=
  vectorResults.foldl (fun d r => dictInsert d r.1 r.2.1) []

/-- Step 1 of the merge for the `meta_lookup` dict. -/
def mergeMeta₁ (vectorResults : List (String × ℚ × JVal)) : List (String × JVal) :=
  vectorResults.foldl (fun d r => dictInsert d r.1 r.2.2) []

/-- Step 2 of the merge: boost by `+0.2`, clamped to `1.0`, every vector id
that is also a keyword match. -/
def mergeScores₂ (vectorResults : List (String × ℚ × JVal))
    (keywordResults : List String) : List (String × ℚ) :=
  (mergeScores₁ vectorResults).map (fun p =>
    if keywordResults.contains p.1 then (p.1, min 1 (p.2 + 1/5)) else p)

/-- Steps 1-3 of the merge: the `final_scores` and `meta_lookup` dicts after
the keyword-only loop. -/
def mergeAccFinal (dbIds : List String) (dbMeta : List JVal)
    (vectorResults : List (String × ℚ × JVal)) (keywordResults : List String) :
    MergeAcc :=
  keywordResults.foldl (keywordOnlyStep keywordResults dbIds dbMeta)
    (mergeScores₂ vectorResults keywordResults, mergeMeta₁ vectorResults)

/-- Step 4 of `Store._score_boosting_merge`: sort ids by final score
descending (stable over dict insertion order) and attach the metadata. -/
def scoreBoostingMerge (dbIds : List String) (dbMeta : List JVal)
    (vectorResults : List (String × ℚ × JVal)) (keywordResults : List String) :
    List (String × ℚ × JVal) :=
  let acc := mergeAccFinal dbIds dbMeta vectorResults keywordResults
  let sortedEntries := acc.1.insertionSort entryGE
  sortedEntries.map (fun p => (p.1, p.2, (dictLookup acc.2 p.1).getD (JVal.obj [])))

/-- The final fused score the merge assigns to an id. -/
def mergeScoreOf (dbIds : List String) (dbMeta : List JVal)
    (vectorResults : List (String × ℚ × JVal)) (keywordResults : List String)
    (id : String) : Option ℚ :=
  ((scoreBoostingMerge dbIds dbMeta vectorResults keywordResults).find?
    (fun r => r.1 == id)).map (·.2.1)

/-- `Store.search`: fetch `3k` vector candidates, the keyword id list, merge,
return the top `k`.  `kw` stands for `KeywordDB.search` on the query text. -/
def hybridSearch (sq : ℚ → ℚ) (st : VDB) (kw : List String)
    (queryVector : List ℚ) (k : ℕ) : List (String × ℚ × JVal) :=
  let vectorHits := VDB.search sq st queryVector (k * 3)
  (scoreBoostingMerge st.ids st.metadata vectorHits kw).take k

/-- `not content.strip()`: the file content is empty or whitespace only. -/
def isBlank (s : String) : Bool :=
  s.data.all Char.isWhitespace

/-- The `{'added', 'skipped', 'failed'}` stats dict of an indexing run. -/
structure Stats : Type where
  added : ℕ
  skipped : ℕ
  failed : ℕ

/-- Indexer state threaded through `DirectoryIndexer.index_directory`:
the persisted `rel_path -> md5` map and the ids written into the RAG store. -/
structure IdxState : Type where
  hashes : List (String × String)
  stored : List String

/-- Classification of what the loop body of `index_directory` does with one
`(rel_path, content)` item. -/
inductive Outcome : Type
  | blankFile : Outcome
  | skippedFile : Outcome
  | success : Outcome
  | failure : Outcome
deriving DecidableEq

/-- Result of a directory-indexing run: the stats, the state as persisted by
the trailing `rag_db.persist()` / `_save_hashes()` (which run after the loop
even when the circuit breaker fired), the final consecutive-failure counter,
whether the breaker fired, and the processed items with their outcomes. -/
structure RunResult : Type where
  stats : Stats
  state : IdxState
  consec : ℕ
  halted : Bool
  trace : List ((String × String) × Outcome)

/-- The `for file_path in files_to_process` loop of
`DirectoryIndexer.index_directory` over `(rel_path, content)` pairs.
`fp` is the content fingerprint (`_compute_hash`); `embedOk path content`
tells whether `rag_db.add_file` succeeds (an exception is the only failure
source inside the `try`).  Blank files are passed over; an unchanged hash
counts as skipped; a success stores the item, updates the hash map and resets
the consecutive-failure counter; a failure increments it and the run breaks
once it reaches 3. -/
def indexRun (fp : String → String) (embedOk : String → String → Bool) :
    List (String × String) → IdxState → ℕ → Stats →
    List ((String × String) × Outcome) → RunResult
  | [], st, consec, stats, tr => ⟨stats, st, consec, false, tr⟩
  | it :: rest, st, consec, stats, tr =>
    if isBlank it.2 then
      indexRun fp embedOk rest st consec stats (tr ++ [(it, Outcome.blankFile)])
    else if dictLookup st.hashes it.1 = some (fp it.2) then
      indexRun fp embedOk rest st consec
        ⟨stats.added, stats.skipped + 1, stats.failed⟩ (tr ++ [(it, Outcome.skippedFile)])
    else if embedOk it.1 it.2 then
      indexRun fp embedOk rest
        ⟨dictInsert st.hashes it.1 (fp it.2), st.stored ++ [it.1]⟩ 0
        ⟨stats.added + 1, stats.skipped, stats.failed⟩ (tr ++ [(it, Outcome.success)])
    else
      if 3 ≤ consec + 1 then
        ⟨⟨stats.added, stats.skipped, stats.failed + 1⟩, st, consec + 1, true,
         tr ++ [(it, Outcome.failure)]⟩
      else
        indexRun fp embedOk rest st (consec + 1)
          ⟨stats.added, stats.skipped, stats.failed + 1⟩ (tr ++ [(it, Outcome.failure)])

/-- A whole `index_directory` run from given initial hashes and an empty
stats dict. -/
def indexDirectory (fp : String → String) (embedOk : String → String → Bool)
    (items : List (String × String)) (st : IdxState) : RunResult :=
  indexRun fp embedOk items st 0 ⟨0, 0, 0⟩ []

/-- Modelled from the spec: the circuit breaker counts *consecutive* indexing
failures; success resets the counter, skipped and blank items leave it
unchanged. -/
def streakStep (c : ℕ) : Outcome → ℕ
  | Outcome.success => 0
  | Outcome.failure => c + 1
  | _ => c

/-- Modelled from the spec: the consecutive-failure count after a sequence of
outcomes. -/
def streak (os : List Outcome) : ℕ :=
  os.foldl streakStep 0

/-- Modelled from the spec: whether a run of outcomes ever reaches 3
consecutive failures (threshold of the circuit breaker). -/
def hitsThreeAux (c : ℕ) : List Outcome → Bool
  | [] => false
  | o :: rest =>
    let c' := streakStep c o
    if 3 ≤ c' then true else hitsThreeAux c' rest

def hitsThree (os : List Outcome) : Bool :=
  hitsThreeAux 0 os

/-- Modelled from the spec: truncate a trace at the first point where the
consecutive-failure count reaches 3 (keeping the breaking item). -/
def truncAtBreakAux (c : ℕ) : List ((String × String) × Outcome) →
    List ((String × String) × Outcome)
  | [] => []
  | x :: rest =>
    let c' := streakStep c x.2
    if 3 ≤ c' then [x] else x :: truncAtBreakAux c' rest

def truncAtBreak (tr : List ((String × String) × Outcome)) :
    List ((String × String) × Outcome) :=
  truncAtBreakAux 0 tr

/-- The classification the loop body applies to one item in a given state. -/
def classify (fp : String → String) (embedOk : String → String → Bool)
    (st : IdxState) (it : String × String) : Outcome :=
  if isBlank it.2 then Outcome.blankFile
  else if dictLookup st.hashes it.1 = some (fp it.2) then Outcome.skippedFile
  else if embedOk it.1 it.2 then Outcome.success
  else Outcome.failure

/-- The state transformation of one item given its outcome. -/
def applyOutcome (fp : String → String) (st : IdxState) (it : String × String) :
    Outcome → IdxState
  | Outcome.success => ⟨dictInsert st.hashes it.1 (fp it.2), st.stored ++ [it.1]⟩
  | _ => st

/-- The run *without* the circuit breaker: the full trace of items and
outcomes the loop would produce if it never broke early. -/
def fullRun (fp : String → String) (embedOk : String → String → Bool) :
    List (String × String) → IdxState → List ((String × String) × Outcome)
  | [], _ => []
  | it :: rest, st =>
    let o := classify fp embedOk st it
    (it, o) :: fullRun fp embedOk rest (applyOutcome fp st it o)

/-- A git commit as the indexer sees it: sha, date and the text to index. -/
structure Commit : Type where
  sha : String
  date : String
  text : String

/-- State of `GitIndexer.index_repository`: the persisted `sha -> date` map
and the ids written into the RAG store. -/
structure GitState : Type where
  indexed : List (String × String)
  stored : List String

/-- Result of a git-indexing run. -/
structure GitRunResult : Type where
  stats : Stats
  state : GitState
  consec : ℕ
  halted : Bool

/-- The `for i, commit in enumerate(commits)` loop of
`GitIndexer.index_repository`.  A malformed commit entry (`not commit or
'sha' not in commit`, modelled by `none`) increments `stats['failed']` and
moves on *without* touching the consecutive-failure counter; an already
indexed sha is skipped; otherwise the commit is indexed, with the same
circuit breaker as the directory indexer around the `try` block. -/
def gitIndexRun (embedOk : Commit → Bool) :
    List (Option Commit) → GitState → ℕ → Stats → GitRunResult
  | [], st, consec, stats => ⟨stats, st, consec, false⟩
  | none :: rest, st, consec, stats =>
    gitIndexRun embedOk rest st consec ⟨stats.added, stats.skipped, stats.failed + 1⟩
  | some cm :: rest, st, consec, stats =>
    if (dictLookup st.indexed cm.sha).isSome then
      gitIndexRun embedOk rest st consec ⟨stats.added, stats.skipped + 1, stats.failed⟩
    else if embedOk cm then
      gitIndexRun embedOk rest
        ⟨dictInsert st.indexed cm.sha cm.date, st.stored ++ [cm.sha]⟩ 0
        ⟨stats.added + 1, stats.skipped, stats.failed⟩
    else
      if 3 ≤ consec + 1 then
        ⟨⟨stats.added, stats.skipped, stats.failed + 1⟩, st, consec + 1, true⟩
      else
        gitIndexRun embedOk rest st (consec + 1)
          ⟨stats.added, stats.skipped, stats.failed + 1⟩

/-- Split a character list on newline characters (keeping empty segments),
the recursion behind `splitLines`. -/
def splitOnNl : List Char → List (List Char)
  | [] => [[]]
  | c :: rest =>
    let gs := splitOnNl rest
    if c = '\n' then [] :: gs
    else (c :: gs.headD []) :: gs.tail

/-- Python `str.splitlines()` for newline-separated text: like splitting on
`'\n'` but with no trailing empty line (`"a\n".splitlines() == ["a"]`,
`"".splitlines() == []`). -/
def splitLines (s : String) : List String :=
  let gs := splitOnNl s.data
  let gs := if gs.getLast? = some [] then gs.dropLast else gs
  gs.map String.mk

/-- Python `str.lower()`. -/
def lowerStr (s : String) : String :=
  String.mk (s.data.map Char.toLower)

/-- Python `" ".join(strs)`. -/
def joinSpace (ls : List String) : String :=
  String.mk (List.intercalate [' '] (ls.map String.data))

/-- Python `"\n".join(strs)`. -/
def joinNl (ls : List String) : String :=
  String.mk (List.intercalate ['\n'] (ls.map String.data))

/-- Does the first list start with the second one? -/
def startsWithL : List Char → List Char → Bool
  | _, [] => true
  | [], _ :: _ => false
  | c :: cs, d :: ds => c = d && startsWithL cs ds

/-- Contiguous-sublist test on character lists. -/
def containsL : List Char → List Char → Bool
  | [], needle => needle.isEmpty
  | c :: rest, needle => startsWithL (c :: rest) needle || containsL rest needle

/-- Python substring containment `needle in hay`. -/
def containsStr (hay needle : String) : Bool :=
  containsL hay.data needle.data

/-- Python `str.strip()`. -/
def pyStrip (s : String) : String :=
  String.mk (((s.data.dropWhile Char.isWhitespace).reverse.dropWhile
    Char.isWhitespace).reverse)

/-- Python `s[:n]` on a string. -/
def takeStr (s : String) (n : ℕ) : String :=
  String.mk (s.data.take n)

/-- A word character of the regex `\w`. -/
def wordChar (c : Char) : Bool :=
  c.isAlphanum || c = '_'

/-- Helper of `findWords`: `cur` is the current word, reversed. -/
def findWordsAux : List Char → List Char → List String
  | [], cur => if cur.isEmpty then [] else [String.mk cur.reverse]
  | c :: rest, cur =>
    if wordChar c then findWordsAux rest (c :: cur)
    else if cur.isEmpty then findWordsAux rest []
    else String.mk cur.reverse :: findWordsAux rest []

/-- Python `re.findall(r"\w+", s)`. -/
def findWords (s : String) : List String :=
  findWordsAux s.data []

/-- Descending order on the match score of a `(line, snippet, score)` window,
for `windows.sort(key=lambda x: x[2], reverse=True)`. -/
def winGE (a b : ℕ × String × ℕ) : Prop := b.2.2 ≤ a.2.2

instance : DecidableRel winGE := fun a b => inferInstanceAs (Decidable (b.2.2 ≤ a.2.2))

/-- The deduplication pass of `_find_all_windows`: walk the score-sorted
windows, keep one unless its 0-based start line is within `ws` lines of an
already kept start. -/
def dedupStep (ws : ℕ) (acc : List (ℕ × String × ℕ) × List ℕ)
    (w : ℕ × String × ℕ) : List (ℕ × String × ℕ) × List ℕ :=
  let lineIdx := w.1 - 1
  let overlaps := acc.2.any (fun u => ((lineIdx : ℤ) - (u : ℤ)).natAbs < ws)
  if overlaps then acc else (acc.1 ++ [w], acc.2 ++ [lineIdx])

/-- `VectorIndex._find_all_windows`: all `ws`-line windows containing at least
one (lowercased, substring-matched) query term, scored by the number of
matching terms, sorted by score descending and greedily deduplicated. -/
def findAllWindows (content : String) (queryTerms : List String) (ws : ℕ) :
    List (ℕ × String × ℕ) :=
  let lines := splitLines content
  if lines.isEmpty then []
  else
    let terms := queryTerms.map lowerStr
    let windows := (List.range lines.length).filterMap (fun i =>
      let w := (lines.drop i).take ws
      let text := lowerStr (joinSpace w)
      let score := terms.countP (fun t => containsStr text t)
      if 0 < score then some (i + 1, joinNl w, score) else none)
    let sorted := windows.insertionSort winGE
    (sorted.foldl (dedupStep ws) ([], [])).1

/-- The small-file path of `_find_best_chunks_for_file`: the first line whose
stripped form is nonempty and longer than 15 characters, truncated to 200. -/
def firstMeaningful : List String → ℕ → Option (ℕ × String × ℚ)
  | [], _ => none
  | l :: rest, i =>
    let s := pyStrip l
    if ¬s.isEmpty ∧ 15 < s.length then some (i + 1, takeStr s 200, 0)
    else firstMeaningful rest (i + 1)

/-- The chunk start offsets `range(0, len(lines), STRIDE)` with stride 15. -/
def strideIdx (n : ℕ) : List ℕ :=
  (List.range ((n + 14) / 15)).map (· * 15)

/-- The first scan of `_find_best_chunks_for_file`: split the chunk windows
into already indexed ones (`chunks_to_score`, with their cached vector) and
missing ones (`chunks_to_create`), stopping at the first window shorter than
3 lines (`break`). -/
def gatherChunks (db : VDB) (filePath : String) (lines : List String) :
    List ℕ → List (ℕ × String × List ℚ) × List (ℕ × String × String)
  | [] => ([], [])
  | i :: rest =>
    let w := (lines.drop i).take 15
    if w.length < 3 then ([], [])
    else
      let chunkId := filePath ++ "#chunk_" ++ toString i
      let chunkText := joinNl w
      let acc := gatherChunks db filePath lines rest
      match db.ids.indexOf? chunkId with
      | some idx => ((i + 1, chunkText, db.vectors.getD idx []) :: acc.1, acc.2)
      | none => (acc.1, (i, chunkText, chunkId) :: acc.2)

/-- The embedding text of a chunk: prefixed with the file path and 1-based
line range for context. -/
def chunkEmbedText (filePath : String) (i nLines : ℕ) (text : String) : String :=
  "File: " ++ filePath ++ " (lines " ++ toString (i + 1) ++ "-" ++
    toString (min (i + 15) nLines) ++ ")\n\n" ++ text

/-- The metadata dict stored with a created chunk record. -/
def chunkMeta (filePath : String) (i nLines : ℕ) (text : String) : JVal :=
  JVal.obj [("file_path", JVal.str filePath),
            ("start_line", JVal.num (i + 1 : ℕ)),
            ("end_line", JVal.num (min (i + 15) nLines : ℕ)),
            ("chunk_text", JVal.str text),
            ("is_chunk", JVal.bool true)]

/-- The creation loop of `_find_best_chunks_for_file`: embed every missing
chunk, store it permanently in the vector store, and append it to the
chunks to score. -/
def createChunks (embed : String → List ℚ) (filePath : String) (nLines : ℕ) :
    List (ℕ × String × String) → VDB → List (ℕ × String × List ℚ) × VDB
  | [], db => ([], db)
  | (i, text, cid) :: rest, db =>
    let v := embed (chunkEmbedText filePath i nLines text)
    let db' := db.add cid v (some (chunkMeta filePath i nLines text))
    let acc := createChunks embed filePath nLines rest db'
    ((i + 1, text, v) :: acc.1, acc.2)

/-- The in-process cosine similarity of `_find_best_chunks_for_file` (note:
unlike `_search_python` it also guards a zero-magnitude query). -/
def chunkSim (sq : ℚ → ℚ) (qv v : List ℚ) : ℚ :=
  let dot := dotQ qv v
  if sq (sumSq qv) = 0 ∨ sq (sumSq v) = 0 then 0
  else dot / (sq (sumSq qv) * sq (sumSq v))

/-- Descending order on the similarity of a scored chunk, for
`scored_chunks.sort(key=lambda x: x[2], reverse=True)`. -/
def chunkGE (a b : ℕ × String × ℚ) : Prop := b.2.2 ≤ a.2.2

instance : DecidableRel chunkGE := fun a b => inferInstanceAs (Decidable (b.2.2 ≤ a.2.2))

/-- `VectorIndex._find_best_chunks_for_file`: small files return their first
meaningful line with similarity `0.0`; larger files gather 15-line chunks,
create and persist the missing ones, score them all against the query vector
and return the single best chunk (`scored_chunks[:1]`). -/
def findBestChunksForFile (sq : ℚ → ℚ) (embed : String → List ℚ) (db : VDB)
    (content filePath : String) (queryVector : List ℚ) :
    List (ℕ × String × ℚ) × VDB :=
  let lines := splitLines content
  if lines.length ≤ 10 then
    (match firstMeaningful lines 0 with
     | some r => [r]
     | none => [], db)
  else
    let acc := gatherChunks db filePath lines (strideIdx lines.length)
    let createdAcc := createChunks embed filePath lines.length acc.2 db
    let db' := if acc.2.isEmpty then createdAcc.2 else createdAcc.2.persist
    let scored := (acc.1 ++ createdAcc.1).map
      (fun c => (c.1, c.2.1, chunkSim sq queryVector c.2.2))
    ((scored.insertionSort chunkGE).take 1, db')

/-- One search hit of `VectorIndex.search`. -/
structure RagResult : Type where
  file : String
  score : ℚ
  line : ℕ
  snippet : String
  fullMatch : Bool

/-- `meta.get(key, default)` restricted to the string values `add_file`
actually stores there. -/
def getStrD (j : JVal) (k : String) (d : String) : String :=
  match j.getKey k with
  | some (JVal.str s) => s
  | _ => d

/-- The per-file body of `VectorIndex.search`: with keyword windows, emit one
`full_match` result per window at the file-level score; without, emit the
best (at most one) lazily created chunk at the mean of file-level and
chunk-level scores. -/
def processFile (sq : ℚ → ℚ) (embed : String → List ℚ) (db : VDB)
    (filePath content : String) (fileScore : ℚ) (queryTerms : List String)
    (queryVector : List ℚ) : List RagResult × VDB :=
  let kw := findAllWindows content queryTerms 3
  if kw.isEmpty then
    let best := findBestChunksForFile sq embed db content filePath queryVector
    (best.1.map (fun c => ⟨filePath, (fileScore + c.2.2) / 2, c.1, c.2.1, false⟩),
     best.2)
  else
    (kw.map (fun w => ⟨filePath, fileScore, w.1, w.2.1, true⟩), db)

/-- The candidate loop of `VectorIndex.search`: skip cached chunk records,
deduplicate by file path, skip files with no cached content, process each
remaining file and stop once `k` files have been processed. -/
def ragLoop (sq : ℚ → ℚ) (embed : String → List ℚ) (k : ℕ)
    (queryTerms : List String) (queryVector : List ℚ) :
    List (String × ℚ × JVal) → VDB → List String → ℕ → List RagResult →
    List RagResult × VDB
  | [], db, _, _, acc => (acc, db)
  | (docId, fileScore, meta) :: rest, db, seen, processed, acc =>
    if containsStr docId "#chunk_" then
      ragLoop sq embed k queryTerms queryVector rest db seen processed acc
    else
      let filePath := getStrD meta "file_path" docId
      if seen.contains filePath then
        ragLoop sq embed k queryTerms queryVector rest db seen processed acc
      else
        let seen' := seen ++ [filePath]
        let content := getStrD meta "content" ""
        if content = "" then
          ragLoop sq embed k queryTerms queryVector rest db seen' processed acc
        else
          let pr := processFile sq embed db filePath content fileScore queryTerms queryVector
          if k ≤ processed + 1 then (acc ++ pr.1, pr.2)
          else ragLoop sq embed k queryTerms queryVector rest pr.2 seen'
            (processed + 1) (acc ++ pr.1)

/-- Descending order on the fused score of a result, for the final
`rag_results.sort(key=lambda x: x["score"], reverse=True)`. -/
def ragResGE (a b : RagResult) : Prop := b.score ≤ a.score

instance : DecidableRel ragResGE := fun a b => inferInstanceAs (Decidable (b.score ≤ a.score))

/-- `VectorIndex.search`: broad hybrid search over-fetching `10 k` candidates
(`kw` stands for the keyword index lookup), then the two-level per-file loop,
then a final stable sort by score descending. -/
def ragSearch (sq : ℚ → ℚ) (embed : String → List ℚ) (kw : String → List String)
    (db : VDB) (query : String) (k : ℕ) : List RagResult × VDB :=
  let queryVector := embed query
  let allResults := hybridSearch sq db (kw query) queryVector (k * 10)
  let queryTerms := findWords query
  let lp := ragLoop sq embed k queryTerms queryVector allResults db [] 0 []
  (lp.1.insertionSort ragResGE, lp.2)

/-- Is this persisted line one `_load` can get past?  Blank and invalid lines
are skipped; a JSON line must expose both `id` and `vector`. -/
def lineLoadable : Line → Bool
  | Line.json j => (j.getKey "id").isSome && (j.getKey "vector").isSome
  | _ => true

/-- The `(id, vector, meta)` triple a loadable JSON line contributes. -/
def lineRecord? : Line → Option (JVal × JVal × JVal)
  | Line.json j =>
    match j.getKey "id", j.getKey "vector" with
    | some i, some v => some (i, v, (j.getKey "meta").getD (JVal.obj []))
    | _, _ => none
  | _ => none

theorem loadFrom_ok_of_loadable (file : List Line) :
    ∀ st : LoadState, (∀ l ∈ file, lineLoadable l = true) →
    loadFrom st file =
      Except.ok ⟨st.ids ++ (file.filterMap lineRecord?).map (·.1),
                 st.vectors ++ (file.filterMap lineRecord?).map (·.2.1),
                 st.metadata ++ (file.filterMap lineRecord?).map (·.2.2)⟩ := by
  induction file with
  | nil => intro st _; simp [loadFrom]
  | cons l rest ih =>
    intro st h
    have hl : lineLoadable l = true := h l (by simp)
    have hrest : ∀ l' ∈ rest, lineLoadable l' = true := fun l' hm => h l' (by simp [hm])
    cases l with
    | blank => simpa [loadFrom, loadLine, lineRecord?] using ih st hrest
    | invalid => simpa [loadFrom, loadLine, lineRecord?] using ih st hrest
    | json j =>
      simp only [lineLoadable, Bool.and_eq_true, Option.isSome_iff_exists] at hl
      obtain ⟨⟨iv, hiv⟩, ⟨vv, hvv⟩⟩ := hl
      simp [loadFrom, loadLine, lineRecord?, hiv, hvv, ih _ hrest]

/-- C5 counterexample: loading is *not* failure-free.  A line that parses as
JSON but is the empty object (so `record['id']` raises `KeyError`) makes
`VectorDB._load` raise instead of skipping the line, refuting the claim on
the concrete one-line file `{}`. -/
theorem loadFile_error_on_keyless_json_line :
    loadFile [Line.json (JVal.obj [])] = Except.error emptyLoad := rfl

/-- C5 (amended): for every persisted file in which each JSON-parsable line
carries both an `id` and a `vector` field, loading succeeds, silently
skipping blank lines and lines that fail JSON parsing, and loads exactly the
well-formed records in order.  (Lines that parse as JSON but lack those
fields instead abort the load — see the counterexample.) -/
theorem loadFile_skips_malformed_lines (file : List Line)
    (h : ∀ l ∈ file, lineLoadable l = true) :
    loadFile file =
      Except.ok ⟨(file.filterMap lineRecord?).map (·.1),
                 (file.filterMap lineRecord?).map (·.2.1),
                 (file.filterMap lineRecord?).map (·.2.2)⟩ := by
  simpa [emptyLoad] using loadFrom_ok_of_loadable file emptyLoad h

/-- Witness for C5 at a concrete file with an invalid line, a blank line and
one well-formed record. -/
theorem loadFile_skips_malformed_lines_witness :
    (∀ l ∈ [Line.invalid, recordLine "a" [1] (JVal.obj []), Line.blank],
      lineLoadable l = true) ∧
    loadFile [Line.invalid, recordLine "a" [1] (JVal.obj []), Line.blank] =
      Except.ok ⟨[JVal.str "a"], [vecJson [1]], [JVal.obj []]⟩ :=
  ⟨by decide, loadFile_skips_malformed_lines _ (by decide)⟩

theorem loadFrom_ok_lengths (file : List Line) :
    ∀ st st' : LoadState,
    st.ids.length = st.vectors.length → st.vectors.length = st.metadata.length →
    loadFrom st file = Except.ok st' →
    st'.ids.length = st'.vectors.length ∧ st'.vectors.length = st'.metadata.length := by
  induction file with
  | nil =>
    intro st st' h1 h2 h
    simp only [loadFrom, Except.ok.injEq] at h
    subst h; exact ⟨h1, h2⟩
  | cons l rest ih =>
    intro st st' h1 h2 h
    cases l with
    | blank => exact ih st st' h1 h2 (by simpa [loadFrom, loadLine] using h)
    | invalid => exact ih st st' h1 h2 (by simpa [loadFrom, loadLine] using h)
    | json j =>
      simp only [loadFrom, loadLine] at h
      cases hid : j.getKey "id" with
      | none => rw [hid] at h; exact absurd h (by simp)
      | some iv =>
        rw [hid] at h
        cases hv : j.getKey "vector" with
        | none => rw [hv] at h; exact absurd h (by simp)
        | some vv =>
          rw [hv] at h
          exact ih _ st' (by simp [h1]) (by simp [h2]) h

/-- Membership in the scored list identifies a valid index of the vector
list and the score computed for it. -/
theorem mem_scoredList (sq : ℚ → ℚ) (st : VDB) (q : List ℚ) (p : ℚ × ℕ)
    (h : p ∈ scoredList sq st q) :
    p.2 < st.vectors.length ∧
      p.1 = cosScore sq q (sq (sumSq q)) (st.vectors.getD p.2 []) := by
  simp only [scoredList, List.mem_map] at h
  obtain ⟨⟨i, v⟩, hm, he⟩ := h
  rw [List.mem_enum_iff_getElem?] at hm
  have hlt : i < st.vectors.length := (List.getElem?_eq_some.mp hm).1
  have hv : st.vectors.getD i [] = v := by
    rw [List.getD_eq_getElem?_getD, hm]; rfl
  cases he
  exact ⟨hlt, by rw [hv]⟩

/-- C10: every `VectorDB` operation preserves the equal-length invariant of
the `ids`, `vectors` and `metadata` lists — a successful load produces equal
lengths, `add` and `persist` preserve the invariant — and every index a
search produces addresses a valid entry of all three lists, so each returned
triple is an actual stored record with its cosine score. -/
theorem vectorDB_length_invariant :
    (∀ (file : List Line) (st : LoadState), loadFile file = Except.ok st →
      st.ids.length = st.vectors.length ∧ st.vectors.length = st.metadata.length) ∧
    (∀ (st : VDB) (id : String) (v : List ℚ) (m : Option JVal),
      st.ids.length = st.vectors.length ∧ st.metadata.length = st.vectors.length →
      (st.add id v m).ids.length = (st.add id v m).vectors.length ∧
        (st.add id v m).metadata.length = (st.add id v m).vectors.length) ∧
    (∀ st : VDB,
      st.ids.length = st.vectors.length ∧ st.metadata.length = st.vectors.length →
      st.persist.ids.length = st.persist.vectors.length ∧
        st.persist.metadata.length = st.persist.vectors.length) ∧
    (∀ (sq : ℚ → ℚ) (st : VDB) (q : List ℚ) (k : ℕ),
      st.ids.length = st.vectors.length ∧ st.metadata.length = st.vectors.length →
      ∀ r ∈ searchPython sq st q k, ∃ i,
        i < st.ids.length ∧ i < st.vectors.length ∧ i < st.metadata.length ∧
        r = (st.ids.getD i "", cosScore sq q (sq (sumSq q)) (st.vectors.getD i []),
             st.metadata.getD i (JVal.obj []))) := by
  refine ⟨?_, ?_, ?_, ?_⟩
  · intro file st h
    exact loadFrom_ok_lengths file emptyLoad st rfl rfl h
  · intro st id v m ⟨h1, h2⟩
    simp [VDB.add, h1, h2]
  · intro st ⟨h1, h2⟩
    cases hd : st.dirty <;> simp [VDB.persist, hd, h1, h2]
  · intro sq st q k ⟨h1, h2⟩ r hr
    simp only [searchPython] at hr
    split at hr
    · simp at hr
    · simp only [List.mem_map] at hr
      obtain ⟨p, hp, he⟩ := hr
      have hp' : p ∈ scoredList sq st q := by
        have hmem := (List.take_sublist k (sortedScores sq st q)).mem hp
        rw [sortedScores, List.mem_insertionSort] at hmem
        exact hmem
      obtain ⟨hlt, hs⟩ := mem_scoredList sq st q p hp'
      refine ⟨p.2, ?_, ?_, ?_, ?_⟩
      · omega
      · exact hlt
      · omega
      · rw [← he, entryOf, hs]

/-- Witness for C10: the invariant holds after a concrete `add`. -/
theorem vectorDB_length_invariant_witness :
    (emptyVDB.add "a" [1] none).ids.length = (emptyVDB.add "a" [1] none).vectors.length ∧
    (emptyVDB.add "a" [1] none).metadata.length = (emptyVDB.add "a" [1] none).vectors.length :=
  vectorDB_length_invariant.2.1 emptyVDB "a" [1] none (by decide)

/-- A sequence of `VectorDB.add` calls applied in order. -/
def applyAdds (adds : List (String × List ℚ × Option JVal)) (st : VDB) : VDB :=
  adds.foldl (fun st c => st.add c.1 c.2.1 c.2.2) st

theorem applyAdds_spec (adds : List (String × List ℚ × Option JVal)) :
    ∀ st : VDB,
    applyAdds adds st =
      ⟨st.ids ++ adds.map (·.1),
       st.vectors ++ adds.map (·.2.1),
       st.metadata ++ adds.map (fun c => c.2.2.getD (JVal.obj [])),
       st.file ++ adds.map (fun c => recordLine c.1 c.2.1 (c.2.2.getD (JVal.obj []))),
       if adds.isEmpty then st.dirty else true⟩ := by
  induction adds with
  | nil => intro st; simp [applyAdds]
  | cons c rest ih =>
    intro st
    simp only [applyAdds, List.foldl_cons] at *
    rw [ih]
    simp [VDB.add]

theorem loadFrom_recordLines (recs : List (String × List ℚ × JVal)) :
    ∀ st : LoadState,
    loadFrom st (recs.map (fun c => recordLine c.1 c.2.1 c.2.2)) =
      Except.ok ⟨st.ids ++ recs.map (fun c => JVal.str c.1),
                 st.vectors ++ recs.map (fun c => vecJson c.2.1),
                 st.metadata ++ recs.map (·.2.2)⟩ := by
  induction recs with
  | nil => intro st; simp [loadFrom]
  | cons c rest ih =>
    intro st
    have h := ih ⟨st.ids ++ [JVal.str c.1], st.vectors ++ [vecJson c.2.1],
      st.metadata ++ [c.2.2]⟩
    simp only [List.append_assoc, List.singleton_append] at h
    simpa [loadFrom, loadLine, recordLine, JVal.getKey] using h

/-- C8: round-trip.  Starting from an empty store, any sequence of `add`
calls yields a persisted file whose reload recovers exactly the in-memory
`ids`, `vectors` and `metadata` lists (hence identical sets) and the same
record count. -/
theorem add_reload_roundtrip (adds : List (String × List ℚ × Option JVal)) :
    loadFile (applyAdds adds emptyVDB).file =
      Except.ok ⟨(applyAdds adds emptyVDB).ids.map JVal.str,
                 (applyAdds adds emptyVDB).vectors.map vecJson,
                 (applyAdds adds emptyVDB).metadata⟩ ∧
    ((applyAdds adds emptyVDB).ids.map JVal.str).length =
      (applyAdds adds emptyVDB).ids.length ∧
    ((applyAdds adds emptyVDB).vectors.map vecJson).length =
      (applyAdds adds emptyVDB).vectors.length ∧
    (applyAdds adds emptyVDB).metadata.length =
      (applyAdds adds emptyVDB).metadata.length := by
  refine ⟨?_, by simp, by simp, rfl⟩
  rw [applyAdds_spec adds emptyVDB]
  have h := loadFrom_recordLines
    (adds.map (fun c => (c.1, c.2.1, c.2.2.getD (JVal.obj [])))) emptyLoad
  simp only [List.map_map] at h
  simp only [loadFile, emptyVDB, emptyLoad, List.nil_append] at *
  convert h using 2
  all_goals simp [Function.comp]

theorem find?_update_self (d : List (String × α)) (k : String) (v : α) :
    (d.map (fun p => if p.1 == k then (k, v) else p)).find? (fun p => p.1 == k) =
      if d.any (fun p => p.1 == k) then some (k, v) else none := by
  induction d with
  | nil => simp
  | cons p rest ih =>
    cases hb : (p.1 == k) with
    | true =>
      rw [List.map_cons, if_pos hb, List.find?_cons_of_pos _ (by simp),
          List.any_cons, hb]
      simp
    | false =>
      rw [List.map_cons, if_neg (by simp [hb]),
          List.find?_cons_of_neg _ (by simp [hb]), List.any_cons, hb]
      simpa using ih

theorem find?_update_ne (d : List (String × α)) (k k' : String) (v : α)
    (h : k' ≠ k) :
    (d.map (fun p => if p.1 == k then (k, v) else p)).find? (fun p => p.1 == k') =
      d.find? (fun p => p.1 == k') := by
  induction d with
  | nil => simp
  | cons p rest ih =>
    cases hb : (p.1 == k) with
    | true =>
      have h1 : (k == k') = false := by
        simp only [beq_eq_false_iff_ne, ne_eq]
        exact fun hc => h hc.symm
      have hpk' : (p.1 == k') = false := by
        rw [show p.1 = k from by simpa using hb]; exact h1
      rw [List.map_cons, if_pos hb, List.find?_cons_of_neg _ (by simp [h1]), ih,
          List.find?_cons_of_neg _ (by simp [hpk'])]
    | false =>
      rw [List.map_cons, if_neg (by simp [hb])]
      cases hb' : (p.1 == k') with
      | true =>
        rw [List.find?_cons_of_pos _ (by simp [hb']),
            List.find?_cons_of_pos _ (by simp [hb'])]
      | false =>
        rw [List.find?_cons_of_neg _ (by simp [hb']),
            List.find?_cons_of_neg _ (by simp [hb']), ih]

theorem dictLookup_dictInsert_self (d : List (String × α)) (k : String) (v : α) :
    dictLookup (dictInsert d k v) k = some v := by
  unfold dictInsert dictLookup
  by_cases h : d.any (fun p => p.1 == k)
  · rw [if_pos h, find?_update_self, if_pos h]; rfl
  · rw [if_neg h, List.find?_append]
    have hnone : d.find? (fun p => p.1 == k) = none := by
      rw [List.find?_eq_none]
      intro p hp
      by_contra hc
      exact h (List.any_eq_true.mpr ⟨p, hp, by simpa using hc⟩)
    simp [hnone]

theorem dictLookup_dictInsert_ne (d : List (String × α)) (k k' : String) (v : α)
    (h : k' ≠ k) :
    dictLookup (dictInsert d k v) k' = dictLookup d k' := by
  unfold dictInsert dictLookup
  by_cases hany : d.any (fun p => p.1 == k)
  · rw [if_pos hany, find?_update_ne d k k' v h]
  · rw [if_neg hany, List.find?_append]
    cases hf : d.find? (fun p => p.1 == k') with
    | some p => simp [hf]
    | none =>
      have h1 : (k == k') = false := by
        simp only [beq_eq_false_iff_ne, ne_eq]
        exact fun hc => h hc.symm
      simp [hf, List.find?, h1]

/-- The keys of a Python dict are pairwise distinct. -/
def keysND (d : List (String × α)) : Prop :=
  (d.map Prod.fst).Nodup

theorem keysND_dictInsert (d : List (String × α)) (k : String) (v : α)
    (h : keysND d) : keysND (dictInsert d k v) := by
  unfold dictInsert
  by_cases hany : d.any (fun p => p.1 == k)
  · rw [if_pos hany]
    have : (d.map (fun p => if p.1 == k then (k, v) else p)).map Prod.fst =
        d.map Prod.fst := by
      rw [List.map_map]
      refine List.map_congr_left (fun p _ => ?_)
      by_cases hp : p.1 = k <;> simp [hp]
    unfold keysND
    rw [this]; exact h
  · rw [if_neg hany]
    unfold keysND at *
    rw [List.map_append]
    simp only [List.map_cons, List.map_nil]
    rw [List.nodup_append]
    refine ⟨h, List.nodup_singleton k, ?_⟩
    intro a ha
    simp only [List.mem_singleton]
    intro hak
    subst hak
    obtain ⟨p, hp, hfst⟩ := List.mem_map.mp ha
    exact (Bool.eq_false_iff.mp (eq_false_of_ne_true (fun hc => hany (List.any_eq_true.mpr ⟨p, hp, hc⟩)))) (by simpa using hfst)

theorem dictLookup_mem (d : List (String × α)) (k : String) (v : α)
    (h : dictLookup d k = some v) : (k, v) ∈ d := by
  unfold dictLookup at h
  cases hf : d.find? (fun p => p.1 == k) with
  | none => rw [hf] at h; simp at h
  | some p =>
    rw [hf] at h
    have hmem := List.mem_of_find?_eq_some hf
    have hpred := List.find?_some hf
    simp only [beq_iff_eq] at hpred
    simp only [Option.map_some', Option.some.injEq] at h
    have : p = (k, v) := by
      cases p; simp_all
    rwa [this] at hmem

theorem find?_of_mem_keysND (d : List (String × α)) (k : String) (v : α)
    (hnd : keysND d) (hm : (k, v) ∈ d) :
    d.find? (fun p => p.1 == k) = some (k, v) := by
  induction d with
  | nil => simp at hm
  | cons p rest ih =>
    unfold keysND at hnd
    simp only [List.map_cons, List.nodup_cons] at hnd
    rcases List.mem_cons.mp hm with he | ht
    · rw [← he, List.find?_cons_of_pos _ (by simp)]
    · by_cases hp : p.1 = k
      · exfalso
        apply hnd.1
        rw [hp]
        exact List.mem_map.mpr ⟨(k, v), ht, rfl⟩
      · rw [List.find?_cons_of_neg _ (by simpa using hp)]
        exact ih hnd.2 ht

theorem dictLookup_of_perm (d d' : List (String × α)) (k : String)
    (hnd : keysND d) (hperm : d'.Perm d) : dictLookup d' k = dictLookup d k := by
  have hnd' : keysND d' := by
    unfold keysND at *
    exact (hperm.map Prod.fst).nodup_iff.mpr hnd
  cases h : dictLookup d k with
  | some v =>
    have hm : (k, v) ∈ d' := hperm.mem_iff.mpr (dictLookup_mem d k v h)
    unfold dictLookup
    rw [find?_of_mem_keysND d' k v hnd' hm]
    rfl
  | none =>
    unfold dictLookup at *
    cases hf : d'.find? (fun p => p.1 == k) with
    | none => rfl
    | some p =>
      exfalso
      have hmem := hperm.mem_iff.mp (List.mem_of_find?_eq_some hf)
      have hpred := List.find?_some hf
      have : d.find? (fun q => q.1 == k) ≠ none := by
        intro hc
        exact absurd hpred (by simpa using List.find?_eq_none.mp hc p hmem)
      cases hg : d.find? (fun q => q.1 == k) with
      | none => exact this hg
      | some q => rw [hg] at h; simp at h

theorem foldIns_lookup_of_not_mem {β : Type} (f : String × ℚ × JVal → β) (k : String) :
    ∀ (vres : List (String × ℚ × JVal)) (d₀ : List (String × β)),
    k ∉ vres.map (·.1) →
    dictLookup (vres.foldl (fun d r => dictInsert d r.1 (f r)) d₀) k =
      dictLookup d₀ k := by
  intro vres
  induction vres with
  | nil => intro d₀ _; rfl
  | cons r rest ih =>
    intro d₀ hk
    simp only [List.map_cons, List.mem_cons, not_or] at hk
    rw [List.foldl_cons, ih _ (by simpa using hk.2),
        dictLookup_dictInsert_ne _ _ _ _ hk.1]

theorem foldIns_lookup_of_mem {β : Type} (f : String × ℚ × JVal → β) :
    ∀ (vres : List (String × ℚ × JVal)) (d₀ : List (String × β))
      (r : String × ℚ × JVal),
    (vres.map (·.1)).Nodup → r ∈ vres →
    dictLookup (vres.foldl (fun d r => dictInsert d r.1 (f r)) d₀) r.1 =
      some (f r) := by
  intro vres
  induction vres with
  | nil => intro d₀ r _ hm; simp at hm
  | cons r' rest ih =>
    intro d₀ r hnd hm
    simp only [List.map_cons, List.nodup_cons] at hnd
    rw [List.foldl_cons]
    rcases List.mem_cons.mp hm with he | ht
    · subst he
      rw [foldIns_lookup_of_not_mem f r.1 rest _ (by simpa using hnd.1),
          dictLookup_dictInsert_self]
    · exact ih _ r hnd.2 ht

theorem dictLookup_boostMap (kres : List String) (k : String) :
    ∀ d : List (String × ℚ),
    dictLookup (d.map (fun p =>
        if kres.contains p.1 then (p.1, min 1 (p.2 + 1/5)) else p)) k =
      (dictLookup d k).map (fun v => if kres.contains k then min 1 (v + 1/5) else v) := by
  intro d
  induction d with
  | nil => rfl
  | cons p rest ih =>
    cases hb : (p.1 == k) with
    | true =>
      have hp : p.1 = k := by simpa using hb
      by_cases hc : kres.contains p.1
      · unfold dictLookup at *
        rw [List.map_cons, if_pos hc,
            List.find?_cons_of_pos _ (by simpa using hb),
            List.find?_cons_of_pos (p := fun q => q.1 == k) rest (by simpa using hb)]
        have hm : k ∈ kres := by rw [← hp]; simpa using hc
        simp [hm]
      · unfold dictLookup at *
        rw [List.map_cons, if_neg hc,
            List.find?_cons_of_pos _ (by simpa using hb),
            List.find?_cons_of_pos (p := fun q => q.1 == k) rest (by simpa using hb)]
        have hm : k ∉ kres := by
          intro hmem
          exact hc (by rw [hp]; simpa using hmem)
        simp [hm]
    | false =>
      unfold dictLookup at *
      rw [List.map_cons]
      by_cases hc : kres.contains p.1
      · rw [if_pos hc, List.find?_cons_of_neg _ (by simpa using hb),
            List.find?_cons_of_neg (p := fun q => q.1 == k) rest (by simpa using hb)]
        exact ih
      · rw [if_neg hc, List.find?_cons_of_neg _ (by simpa using hb),
            List.find?_cons_of_neg (p := fun q => q.1 == k) rest (by simpa using hb)]
        exact ih

theorem fold3_preserves_some (K dbIds : List String) (dbMeta : List JVal) :
    ∀ (l : List String) (acc : MergeAcc) (k : String) (v : ℚ),
    dictLookup acc.1 k = some v →
    dictLookup (l.foldl (keywordOnlyStep K dbIds dbMeta) acc).1 k = some v := by
  intro l
  induction l with
  | nil => intro acc k v h; exact h
  | cons d rest ih =>
    intro acc k v h
    rw [List.foldl_cons]
    apply ih
    unfold keywordOnlyStep
    by_cases hd : (dictLookup acc.1 d).isSome
    · rw [if_pos hd]; exact h
    · rw [if_neg hd]
      have hne : k ≠ d := by
        intro he; subst he; rw [h] at hd; simp at hd
      simpa [dictLookup_dictInsert_ne _ _ _ _ hne] using h

theorem fold3_inserts (K dbIds : List String) (dbMeta : List JVal) :
    ∀ (l : List String) (acc : MergeAcc) (k : String),
    dictLookup acc.1 k = none → k ∈ l →
    dictLookup (l.foldl (keywordOnlyStep K dbIds dbMeta) acc).1 k =
      some (max (2/5) (1/2 - (K.indexOf k : ℚ) * (1/50))) := by
  intro l
  induction l with
  | nil => intro acc k _ hm; simp at hm
  | cons d rest ih =>
    intro acc k h hm
    rw [List.foldl_cons]
    by_cases hdk : d = k
    · subst hdk
      have hd : ¬(dictLookup acc.1 d).isSome := by simp [h]
      apply fold3_preserves_some
      unfold keywordOnlyStep
      rw [if_neg hd]
      exact dictLookup_dictInsert_self _ _ _
    · have hm' : k ∈ rest := by
        rcases List.mem_cons.mp hm with he | ht
        · exact absurd he.symm hdk
        · exact ht
      apply ih _ k _ hm'
      unfold keywordOnlyStep
      by_cases hd : (dictLookup acc.1 d).isSome
      · rw [if_pos hd]; exact h
      · rw [if_neg hd]
        simpa [dictLookup_dictInsert_ne _ _ _ _ (fun he => hdk he.symm)] using h

theorem keysND_foldIns {β : Type} (f : String × ℚ × JVal → β) :
    ∀ (vres : List (String × ℚ × JVal)) (d₀ : List (String × β)),
    keysND d₀ → keysND (vres.foldl (fun d r => dictInsert d r.1 (f r)) d₀) := by
  intro vres
  induction vres with
  | nil => intro d₀ h; exact h
  | cons r rest ih =>
    intro d₀ h
    rw [List.foldl_cons]
    exact ih _ (keysND_dictInsert _ _ _ h)

theorem keysND_boostMap (kres : List String) (d : List (String × ℚ))
    (h : keysND d) :
    keysND (d.map (fun p =>
      if kres.contains p.1 then (p.1, min 1 (p.2 + 1/5)) else p)) := by
  unfold keysND at *
  have heq : (d.map (fun p =>
      if kres.contains p.1 then (p.1, min 1 (p.2 + 1/5)) else p)).map Prod.fst =
      d.map Prod.fst := by
    rw [List.map_map]
    refine List.map_congr_left (fun p _ => ?_)
    by_cases hc : p.1 ∈ kres <;> simp [hc]
  rw [heq]
  exact h

theorem keysND_fold3 (K dbIds : List String) (dbMeta : List JVal) :
    ∀ (l : List String) (acc : MergeAcc), keysND acc.1 →
    keysND ((l.foldl (keywordOnlyStep K dbIds dbMeta) acc)).1 := by
  intro l
  induction l with
  | nil => intro acc h; exact h
  | cons d rest ih =>
    intro acc h
    rw [List.foldl_cons]
    apply ih
    unfold keywordOnlyStep
    by_cases hd : (dictLookup acc.1 d).isSome
    · rw [if_pos hd]; exact h
    · rw [if_neg hd]
      exact keysND_dictInsert _ _ _ h

theorem keysND_mergeAccFinal (dbIds : List String) (dbMeta : List JVal)
    (vres : List (String × ℚ × JVal)) (kres : List String) :
    keysND (mergeAccFinal dbIds dbMeta vres kres).1 := by
  apply keysND_fold3
  apply keysND_boostMap
  apply keysND_foldIns
  simp [keysND]

theorem find?_map_fst_pres {β γ : Type} (f : String × β → String × γ)
    (hf : ∀ p, (f p).1 = p.1) (k : String) :
    ∀ l : List (String × β),
    (l.map f).find? (fun r => r.1 == k) = (l.find? (fun p => p.1 == k)).map f := by
  intro l
  induction l with
  | nil => rfl
  | cons p rest ih =>
    cases hb : (p.1 == k) with
    | true =>
      rw [List.map_cons, List.find?_cons_of_pos _ (by simp [hf p]; simpa using hb),
          List.find?_cons_of_pos (p := fun q => q.1 == k) rest (by simpa using hb)]
      rfl
    | false =>
      rw [List.map_cons, List.find?_cons_of_neg _ (by simp [hf p]; simpa using hb),
          List.find?_cons_of_neg (p := fun q => q.1 == k) rest (by simpa using hb)]
      exact ih

theorem mergeScoreOf_eq_lookup (dbIds : List String) (dbMeta : List JVal)
    (vres : List (String × ℚ × JVal)) (kres : List String) (id : String) :
    mergeScoreOf dbIds dbMeta vres kres id =
      dictLookup (mergeAccFinal dbIds dbMeta vres kres).1 id := by
  unfold mergeScoreOf scoreBoostingMerge
  rw [find?_map_fst_pres
    (fun p => (p.1, p.2,
      (dictLookup (mergeAccFinal dbIds dbMeta vres kres).2 p.1).getD (JVal.obj [])))
    (fun p => rfl) id
    ((mergeAccFinal dbIds dbMeta vres kres).1.insertionSort entryGE)]
  have hperm :
      ((mergeAccFinal dbIds dbMeta vres kres).1.insertionSort entryGE).Perm
        (mergeAccFinal dbIds dbMeta vres kres).1 :=
    List.perm_insertionSort _ _
  have heq := dictLookup_of_perm _ _ id (keysND_mergeAccFinal dbIds dbMeta vres kres) hperm
  unfold dictLookup at heq
  unfold dictLookup
  rw [← heq]
  cases ((mergeAccFinal dbIds dbMeta vres kres).1.insertionSort entryGE).find?
      (fun p => p.1 == id) <;> simp

/-- C2: in the score-boosting merge every id among the vector candidates that
also matches keywords gets final score `min(1.0, vector score + 0.2)`, and
every vector-only id keeps its vector score unchanged. -/
theorem merge_boost_clamped (dbIds : List String) (dbMeta : List JVal)
    (vres : List (String × ℚ × JVal)) (kres : List String)
    (hnd : (vres.map (·.1)).Nodup) :
    ∀ r ∈ vres,
      (r.1 ∈ kres →
        mergeScoreOf dbIds dbMeta vres kres r.1 = some (min 1 (r.2.1 + 1/5))) ∧
      (r.1 ∉ kres →
        mergeScoreOf dbIds dbMeta vres kres r.1 = some r.2.1) := by
  intro r hr
  have hbase : dictLookup (mergeScores₁ vres) r.1 = some r.2.1 :=
    foldIns_lookup_of_mem _ vres [] r hnd hr
  constructor
  · intro hk
    rw [mergeScoreOf_eq_lookup]
    unfold mergeAccFinal
    apply fold3_preserves_some
    unfold mergeScores₂
    rw [dictLookup_boostMap, hbase]
    simp [hk]
  · intro hk
    rw [mergeScoreOf_eq_lookup]
    unfold mergeAccFinal
    apply fold3_preserves_some
    unfold mergeScores₂
    rw [dictLookup_boostMap, hbase]
    simp [hk]

/-- Witness for C2: a vector score of `0.9` plus the keyword boost yields
exactly `1.0`, never `1.1`. -/
theorem merge_boost_clamped_witness :
    mergeScoreOf [] [] [("a", 9/10, JVal.obj [])] ["a"] "a" = some 1 := by
  have h := (merge_boost_clamped [] [] [("a", 9/10, JVal.obj [])] ["a"]
    (by simp) ("a", 9/10, JVal.obj []) (by simp)).1 (by simp)
  rw [h]
  norm_num

/-- C1 (amended): every keyword-only id gets the synthetic score
`max(0.4, 0.5 - 0.02 * position)`, which lies in the closed interval
`[0.4, 0.5]` — the id at position 0 gets exactly `0.5`, so the half-open
interval `[0.4, 0.5)` of the original claim is off by its right endpoint. -/
theorem merge_keyword_only_range (dbIds : List String) (dbMeta : List JVal)
    (vres : List (String × ℚ × JVal)) (kres : List String) (id : String)
    (hk : id ∈ kres) (hv : id ∉ vres.map (·.1)) :
    mergeScoreOf dbIds dbMeta vres kres id =
      some (max (2/5) (1/2 - (kres.indexOf id : ℚ) * (1/50))) ∧
    (2/5 : ℚ) ≤ max (2/5) (1/2 - (kres.indexOf id : ℚ) * (1/50)) ∧
    max (2/5) (1/2 - (kres.indexOf id : ℚ) * (1/50)) ≤ 1/2 := by
  refine ⟨?_, le_max_left _ _, ?_⟩
  · rw [mergeScoreOf_eq_lookup]
    unfold mergeAccFinal
    apply fold3_inserts _ _ _ _ _ _ _ hk
    unfold mergeScores₂
    rw [dictLookup_boostMap]
    unfold mergeScores₁
    rw [foldIns_lookup_of_not_mem _ _ vres [] hv]
    rfl
  · apply max_le (by norm_num)
    have h0 : (0:ℚ) ≤ (kres.indexOf id : ℚ) * (1/50) := by positivity
    linarith

/-- Witness for C1 at a keyword-only id in position 1 (score `0.48`). -/
theorem merge_keyword_only_range_witness :
    mergeScoreOf [] [] [] ["b", "a"] "a" =
      some (max (2/5) (1/2 - ((["b", "a"].indexOf "a" : ℕ) : ℚ) * (1/50))) ∧
    (2/5 : ℚ) ≤ max (2/5) (1/2 - ((["b", "a"].indexOf "a" : ℕ) : ℚ) * (1/50)) ∧
    max (2/5) (1/2 - ((["b", "a"].indexOf "a" : ℕ) : ℚ) * (1/50)) ≤ 1/2 :=
  merge_keyword_only_range [] [] [] ["b", "a"] "a" (by simp) (by simp)

/-- C1 counterexample: the keyword-only id in position 0 of the keyword list
gets synthetic score exactly `0.5`, which does not lie strictly below `0.5`
as the claim's interval `[0.4, 0.5)` requires. -/
theorem merge_keyword_only_first_is_half :
    mergeScoreOf [] [] [] ["a"] "a" = some (1/2) ∧ ¬((1:ℚ)/2 < 1/2) := by
  constructor
  · unfold mergeScoreOf scoreBoostingMerge mergeAccFinal mergeScores₂ mergeScores₁
      mergeMeta₁
    norm_num [keywordOnlyStep, dictLookup, dictInsert, List.insertionSort,
      List.orderedInsert, show (["a"].indexOf "a") = 0 from rfl]
  · exact lt_irrefl _

theorem sumSq_nonneg (v : List ℚ) : 0 ≤ sumSq v := by
  unfold sumSq
  apply List.sum_nonneg
  intro x hx
  obtain ⟨y, _, hy⟩ := List.mem_map.mp hx
  rw [← hy]
  exact mul_self_nonneg y

/-- C9: cosine search never divides by zero.  A zero-magnitude query makes
`search` return the empty list, a zero-magnitude stored vector gets score `0`
through the guarded branch, and in every remaining case the divisor
`q_mag * v_mag` is nonzero. -/
theorem search_no_division_by_zero (sq : ℚ → ℚ) (hsq0 : sq 0 = 0)
    (hpos : ∀ x : ℚ, 0 < x → 0 < sq x) :
    (∀ (st : VDB) (q : List ℚ) (k : ℕ), sumSq q = 0 → VDB.search sq st q k = []) ∧
    (∀ (q : List ℚ) (qMag : ℚ) (v : List ℚ), sumSq v = 0 → cosScore sq q qMag v = 0) ∧
    (∀ q v : List ℚ, sumSq q ≠ 0 → sumSq v ≠ 0 →
      sq (sumSq q) * sq (sumSq v) ≠ 0) := by
  refine ⟨?_, ?_, ?_⟩
  · intro st q k hq
    unfold VDB.search searchPython
    rw [hq, hsq0]
    simp
  · intro q qMag v hv
    unfold cosScore
    rw [hv, hsq0]
    simp
  · intro q v hq hv
    have h1 : 0 < sq (sumSq q) :=
      hpos _ (lt_of_le_of_ne (sumSq_nonneg q) (Ne.symm hq))
    have h2 : 0 < sq (sumSq v) :=
      hpos _ (lt_of_le_of_ne (sumSq_nonneg v) (Ne.symm hv))
    positivity

/-- Witness for C9 with the identity as the abstract square root. -/
theorem search_no_division_by_zero_witness :
    VDB.search (fun x => x) emptyVDB [0, 0] 5 = [] ∧
    cosScore (fun x => x) [1] 1 [0] = 0 :=
  ⟨(search_no_division_by_zero (fun x => x) rfl (fun _ h => h)).1 emptyVDB [0, 0] 5
      (by norm_num [sumSq]),
   (search_no_division_by_zero (fun x => x) rfl (fun _ h => h)).2.1 [1] 1 [0]
      (by norm_num [sumSq])⟩

instance : IsTotal (ℚ × ℕ) scoreGE := ⟨fun a b => le_total b.1 a.1⟩

instance : IsTrans (ℚ × ℕ) scoreGE := ⟨fun _ _ _ hab hbc => le_trans hbc hab⟩

/-- The cosine score `_search_python` computes for the `i`-th stored vector. -/
def scoreAt (sq : ℚ → ℚ) (st : VDB) (q : List ℚ) (i : ℕ) : ℚ :=
  cosScore sq q (sq (sumSq q)) (st.vectors.getD i [])

/-- The whole result list of `_search_python` before the `[:k]` truncation. -/
def searchAllSorted (sq : ℚ → ℚ) (st : VDB) (q : List ℚ) :
    List (String × ℚ × JVal) :=
  (sortedScores sq st q).map (entryOf st)

theorem pair_getElem_sublist (l : List α) (i j : ℕ) (hi : i < l.length)
    (hj : j < l.length) (hij : i < j) : List.Sublist [l[i], l[j]] l := by
  have h1 : List.Sublist [l[i]] (l.take (i + 1)) := by
    rw [List.singleton_sublist, List.mem_iff_getElem]
    refine ⟨i, by rw [List.length_take]; omega, ?_⟩
    exact List.getElem_take l
  have h2 : List.Sublist [l[j]] (l.drop (i + 1)) := by
    rw [List.singleton_sublist, List.mem_iff_getElem]
    refine ⟨j - (i + 1), by rw [List.length_drop]; omega, ?_⟩
    rw [List.getElem_drop l]
    congr 1
    omega
  have := h1.append h2
  rwa [List.take_append_drop] at this

theorem scoredList_getElem (sq : ℚ → ℚ) (st : VDB) (q : List ℚ) (i : ℕ)
    (hi : i < (scoredList sq st q).length) :
    (scoredList sq st q)[i] = (scoreAt sq st q i, i) := by
  unfold scoredList
  have hlen : i < st.vectors.enum.length := by
    simpa [scoredList] using hi
  have hlen' : i < st.vectors.length := by simpa using hlen
  rw [List.getElem_map, List.getElem_enum]
  unfold scoreAt
  congr 1
  rw [List.getD_eq_getElem?_getD, List.getElem?_eq_getElem hlen']
  rfl

theorem length_scoredList (sq : ℚ → ℚ) (st : VDB) (q : List ℚ) :
    (scoredList sq st q).length = st.vectors.length := by
  simp [scoredList]

theorem numpyScoredList_getElem (sq : ℚ → ℚ) (st : VDB) (q : List ℚ) (i : ℕ)
    (hi : i < (numpyScoredList sq st q).length) :
    (numpyScoredList sq st q)[i] = (numpyScoreAt sq st q i, i) := by
  unfold numpyScoredList
  have hlen : i < st.vectors.enum.length := by
    simpa [numpyScoredList] using hi
  have hlen' : i < st.vectors.length := by simpa using hlen
  rw [List.getElem_map, List.getElem_enum]
  unfold numpyScoreAt
  congr 1
  rw [List.getD_eq_getElem?_getD, List.getElem?_eq_getElem hlen']
  rfl

/-- C4 counterexample: with two identical records and `k ≥ size`, the numpy
search path (`top_indices = np.argsort(scores)[::-1]`, taken by
`VectorDB.search` whenever numpy imports) returns the two tied records in
*reverse* insertion order — id "b" before id "a" — refuting the claim that
ties between equal scores are broken by original insertion order. -/
theorem numpy_ties_reverse_insertion_order :
    (searchNumpyAll (fun x => x)
        ⟨["a", "b"], [[1], [1]], [JVal.obj [], JVal.obj []], [], false⟩ [1]).map
      (·.1) = ["b", "a"] ∧
    (searchNumpyAll (fun x => x)
        ⟨["a", "b"], [[1], [1]], [JVal.obj [], JVal.obj []], [], false⟩ [1]).map
      (·.2.1) = [1, 1] ∧
    (["b", "a"] : List String) ≠ ["a", "b"] := by
  refine ⟨?_, ?_, by decide⟩ <;>
    (norm_num [searchNumpyAll, numpyScoredList, numpyScore, sumSq, dotQ, entryOf,
      List.insertionSort, List.orderedInsert, scoreLE, List.enum, List.enumFrom];
     try decide)

/-- C4 (amended): for every store and every non-zero-magnitude query the
pure-Python search (used when numpy is unavailable) returns `min k n`
results (so at most `k`, and all `n` when `k ≥ n`), sorted by score
descending; ties between equal scores keep insertion order (the pair of
entries appears in index order inside the fully sorted result list); and
when `k ≥ n` the result is a permutation of all scored records.  The numpy
implementation, preferred when numpy is installed, instead lists equal-score
entries in *reverse* insertion order in its `k ≥ size` branch (final
conjunct; see also the counterexample). -/
theorem search_topk_sorted_stable (sq : ℚ → ℚ) (st : VDB) (q : List ℚ) (k : ℕ)
    (hsq0 : sq 0 = 0) (hpos : ∀ x : ℚ, 0 < x → 0 < sq x) (hq : sumSq q ≠ 0) :
    (VDB.search sq st q k).length = min k st.vectors.length ∧
    List.Pairwise (fun a b => b.2.1 ≤ a.2.1) (VDB.search sq st q k) ∧
    (∀ i j, i < st.vectors.length → j < st.vectors.length → i < j →
      scoreAt sq st q i = scoreAt sq st q j →
      List.Sublist [entryOf st (scoreAt sq st q i, i),
        entryOf st (scoreAt sq st q j, j)] (searchAllSorted sq st q)) ∧
    (st.vectors.length ≤ k →
      (VDB.search sq st q k).Perm ((scoredList sq st q).map (entryOf st))) ∧
    (∀ i j, i < st.vectors.length → j < st.vectors.length → i < j →
      numpyScoreAt sq st q i = numpyScoreAt sq st q j →
      List.Sublist [entryOf st (numpyScoreAt sq st q j, j),
        entryOf st (numpyScoreAt sq st q i, i)] (searchNumpyAll sq st q)) := by
  have hqmag : sq (sumSq q) ≠ 0 :=
    ne_of_gt (hpos _ (lt_of_le_of_ne (sumSq_nonneg q) (Ne.symm hq)))
  have hnstab : ∀ i j, i < st.vectors.length → j < st.vectors.length → i < j →
      numpyScoreAt sq st q i = numpyScoreAt sq st q j →
      List.Sublist [entryOf st (numpyScoreAt sq st q j, j),
        entryOf st (numpyScoreAt sq st q i, i)] (searchNumpyAll sq st q) := by
    intro i j hi hj hij hs
    have hi' : i < (numpyScoredList sq st q).length := by
      simpa [numpyScoredList] using hi
    have hj' : j < (numpyScoredList sq st q).length := by
      simpa [numpyScoredList] using hj
    have hsub := pair_getElem_sublist (numpyScoredList sq st q) i j hi' hj' hij
    rw [numpyScoredList_getElem sq st q i hi',
        numpyScoredList_getElem sq st q j hj'] at hsub
    have hpair : List.Sublist [(numpyScoreAt sq st q i, i), (numpyScoreAt sq st q j, j)]
        ((numpyScoredList sq st q).insertionSort scoreLE) :=
      List.pair_sublist_insertionSort (le_of_eq hs) hsub
    have hrev := hpair.reverse
    rw [show ([(numpyScoreAt sq st q i, i),
        (numpyScoreAt sq st q j, j)]).reverse =
      [(numpyScoreAt sq st q j, j), (numpyScoreAt sq st q i, i)] from rfl] at hrev
    unfold searchNumpyAll
    rw [if_neg hqmag]
    simpa using hrev.map (entryOf st)
  have hstab : ∀ i j, i < st.vectors.length → j < st.vectors.length → i < j →
      scoreAt sq st q i = scoreAt sq st q j →
      List.Sublist [entryOf st (scoreAt sq st q i, i),
        entryOf st (scoreAt sq st q j, j)] (searchAllSorted sq st q) := by
    intro i j hi hj hij hs
    have hi' : i < (scoredList sq st q).length := by rw [length_scoredList]; exact hi
    have hj' : j < (scoredList sq st q).length := by rw [length_scoredList]; exact hj
    have hsub : List.Sublist [(scoredList sq st q)[i], (scoredList sq st q)[j]]
        (scoredList sq st q) := pair_getElem_sublist _ i j hi' hj' hij
    rw [scoredList_getElem sq st q i hi', scoredList_getElem sq st q j hj'] at hsub
    have hpair : List.Sublist [(scoreAt sq st q i, i), (scoreAt sq st q j, j)]
        (sortedScores sq st q) := by
      unfold sortedScores
      exact List.pair_sublist_insertionSort (le_of_eq hs.symm) hsub
    unfold searchAllSorted
    simpa using hpair.map (entryOf st)
  by_cases hemp : st.vectors = []
  · refine ⟨?_, ?_, hstab, ?_, hnstab⟩
    · simp [VDB.search, hemp]
    · simp [VDB.search, hemp]
    · intro _
      simp [VDB.search, hemp, scoredList]
  · have hsearch : VDB.search sq st q k =
        ((sortedScores sq st q).take k).map (entryOf st) := by
      unfold VDB.search searchPython
      rw [if_neg hemp, if_neg hqmag]
    refine ⟨?_, ?_, hstab, ?_, hnstab⟩
    · rw [hsearch]
      simp [sortedScores, length_scoredList, Nat.min_comm]
    · rw [hsearch]
      have hsorted : List.Pairwise scoreGE (sortedScores sq st q) :=
        List.sorted_insertionSort scoreGE (scoredList sq st q)
      have htake : List.Pairwise scoreGE ((sortedScores sq st q).take k) :=
        hsorted.sublist (List.take_sublist _ _)
      rw [List.pairwise_map]
      exact htake.imp (fun h => h)
    · intro hk
      rw [hsearch, List.take_of_length_le]
      · exact (List.perm_insertionSort scoreGE (scoredList sq st q)).map (entryOf st)
      · rw [sortedScores, List.length_insertionSort, length_scoredList]
        exact hk

/-- Witness for C4 on a two-record store with tied scores. -/
theorem search_topk_sorted_stable_witness :
    (VDB.search (fun x => x) ⟨["a", "b"], [[1], [1]], [JVal.obj [], JVal.obj []], [], false⟩
      [1] 5).length = min 5 2 :=
  (search_topk_sorted_stable (fun x => x)
    ⟨["a", "b"], [[1], [1]], [JVal.obj [], JVal.obj []], [], false⟩ [1] 5
    rfl (fun _ h => h) (by norm_num [sumSq])).1

/-- The state transformation of a processed trace. -/
def applyRun (fp : String → String) (st : IdxState)
    (tr : List ((String × String) × Outcome)) : IdxState :=
  tr.foldl (fun s x => applyOutcome fp s x.1 x.2) st

theorem indexRun_spec (fp : String → String) (embedOk : String → String → Bool) :
    ∀ (items : List (String × String)) (st : IdxState) (consec : ℕ) (stats : Stats)
      (tr : List ((String × String) × Outcome)), consec < 3 →
    (indexRun fp embedOk items st consec stats tr).trace =
      tr ++ truncAtBreakAux consec (fullRun fp embedOk items st) ∧
    (indexRun fp embedOk items st consec stats tr).halted =
      hitsThreeAux consec ((fullRun fp embedOk items st).map (·.2)) ∧
    (indexRun fp embedOk items st consec stats tr).consec =
      ((truncAtBreakAux consec (fullRun fp embedOk items st)).map (·.2)).foldl
        streakStep consec ∧
    (indexRun fp embedOk items st consec stats tr).state =
      applyRun fp st (truncAtBreakAux consec (fullRun fp embedOk items st)) ∧
    (indexRun fp embedOk items st consec stats tr).stats =
      ⟨stats.added + ((truncAtBreakAux consec (fullRun fp embedOk items st)).map
          (·.2)).count Outcome.success,
       stats.skipped + ((truncAtBreakAux consec (fullRun fp embedOk items st)).map
          (·.2)).count Outcome.skippedFile,
       stats.failed + ((truncAtBreakAux consec (fullRun fp embedOk items st)).map
          (·.2)).count Outcome.failure⟩ := by
  intro items
  induction items with
  | nil =>
    intro st consec stats tr _
    simp [indexRun, fullRun, truncAtBreakAux, hitsThreeAux, applyRun]
  | cons it rest ih =>
    intro st consec stats tr hc
    by_cases hb : isBlank it.2
    · have hcl : classify fp embedOk st it = Outcome.blankFile := by
        simp [classify, hb]
      have hap : applyOutcome fp st it Outcome.blankFile = st := rfl
      have hrec := ih st consec
        stats (tr ++ [(it, Outcome.blankFile)]) hc
      simp only [indexRun, if_pos hb, fullRun, hcl, hap, List.map_cons,
        truncAtBreakAux, hitsThreeAux, streakStep, Nat.not_le.mpr hc, if_false,
        List.foldl_cons, List.count_cons, applyRun]
      rw [hrec.1, hrec.2.1, hrec.2.2.1, hrec.2.2.2.1, hrec.2.2.2.2]
      refine ⟨by simp, rfl, rfl, rfl, ?_⟩
      simp [applyRun, List.count_cons]
    · by_cases hs : dictLookup st.hashes it.1 = some (fp it.2)
      · have hcl : classify fp embedOk st it = Outcome.skippedFile := by
          simp [classify, hb, hs]
        have hap : applyOutcome fp st it Outcome.skippedFile = st := rfl
        have hrec := ih st consec
          ⟨stats.added, stats.skipped + 1, stats.failed⟩
          (tr ++ [(it, Outcome.skippedFile)]) hc
        simp only [indexRun, if_neg hb, if_pos hs, fullRun, hcl, hap,
          List.map_cons, truncAtBreakAux, hitsThreeAux, streakStep,
          Nat.not_le.mpr hc, if_false, List.foldl_cons, applyRun]
        rw [hrec.1, hrec.2.1, hrec.2.2.1, hrec.2.2.2.1, hrec.2.2.2.2]
        refine ⟨by simp, rfl, rfl, rfl, ?_⟩
        simp [applyRun, List.count_cons]
        omega
      · by_cases he : embedOk it.1 it.2
        · have hcl : classify fp embedOk st it = Outcome.success := by
            simp [classify, hb, hs, he]
          have hrec := ih (applyOutcome fp st it Outcome.success) 0
            ⟨stats.added + 1, stats.skipped, stats.failed⟩
            (tr ++ [(it, Outcome.success)]) (by omega)
          simp only [indexRun, if_neg hb, if_neg hs, if_pos he, fullRun, hcl,
            List.map_cons, truncAtBreakAux, hitsThreeAux, streakStep,
            List.foldl_cons, applyRun]
          rw [if_neg (show ¬(3:ℕ) ≤ 0 by omega), if_neg (show ¬(3:ℕ) ≤ 0 by omega)]
          have hap : applyOutcome fp st it Outcome.success =
              ⟨dictInsert st.hashes it.1 (fp it.2), st.stored ++ [it.1]⟩ := rfl
          rw [hap] at hrec
          rw [hap]
          rw [hrec.1, hrec.2.1, hrec.2.2.1, hrec.2.2.2.1, hrec.2.2.2.2]
          refine ⟨by simp, ?_, ?_, ?_, ?_⟩
          · trivial
          · trivial
          · trivial
          · simp [applyRun, List.count_cons]
            omega
        · have hcl : classify fp embedOk st it = Outcome.failure := by
            simp [classify, hb, hs, he]
          have hap : applyOutcome fp st it Outcome.failure = st := rfl
          by_cases hstop : 3 ≤ consec + 1
          · simp only [indexRun, if_neg hb, if_neg hs, if_neg he, if_pos hstop,
              fullRun, hcl, hap, List.map_cons, truncAtBreakAux, hitsThreeAux,
              streakStep, if_pos hstop, applyRun]
            refine ⟨?_, ?_, ?_, ?_, ?_⟩
            all_goals trivial
          · have hrec := ih st (consec + 1)
              ⟨stats.added, stats.skipped, stats.failed + 1⟩
              (tr ++ [(it, Outcome.failure)]) (by omega)
            simp only [indexRun, if_neg hb, if_neg hs, if_neg he, if_neg hstop,
              fullRun, hcl, hap, List.map_cons, truncAtBreakAux, hitsThreeAux,
              streakStep, List.foldl_cons, applyRun]
            rw [hrec.1, hrec.2.1, hrec.2.2.1, hrec.2.2.2.1, hrec.2.2.2.2]
            refine ⟨?_, ?_, ?_, ?_, ?_⟩
            all_goals first
              | trivial
              | omega
              | (simp
                 omega)
              | simp

theorem fullRun_map_fst (fp : String → String) (embedOk : String → String → Bool) :
    ∀ (items : List (String × String)) (st : IdxState),
    (fullRun fp embedOk items st).map (·.1) = items := by
  intro items
  induction items with
  | nil => intro st; rfl
  | cons it rest ih => intro st; simp [fullRun, ih]

theorem truncAtBreakAux_sublist :
    ∀ (tr : List ((String × String) × Outcome)) (c : ℕ),
    List.Sublist (truncAtBreakAux c tr) tr := by
  intro tr
  induction tr with
  | nil => intro c; simp [truncAtBreakAux]
  | cons x rest ih =>
    intro c
    unfold truncAtBreakAux
    by_cases h : 3 ≤ streakStep c x.2
    · rw [if_pos h]
      exact (List.nil_sublist rest).cons₂ x
    · rw [if_neg h]
      exact (ih _).cons₂ x

theorem applyRun_hashes_of_ne (fp : String → String) (k : String) :
    ∀ (tr : List ((String × String) × Outcome)) (st : IdxState),
    (∀ x ∈ tr, x.1.1 ≠ k) →
    dictLookup (applyRun fp st tr).hashes k = dictLookup st.hashes k := by
  intro tr
  induction tr with
  | nil => intro st _; rfl
  | cons x rest ih =>
    intro st hne
    unfold applyRun
    rw [List.foldl_cons]
    have hx : x.1.1 ≠ k := hne x (by simp)
    have hrest : ∀ y ∈ rest, y.1.1 ≠ k := fun y hy => hne y (by simp [hy])
    have := ih (applyOutcome fp st x.1 x.2) hrest
    unfold applyRun at this
    rw [this]
    cases x.2 <;>
      simp [applyOutcome, dictLookup_dictInsert_ne _ _ _ _ (Ne.symm hx)]

theorem applyRun_stored_mono (fp : String → String) (k : String) :
    ∀ (tr : List ((String × String) × Outcome)) (st : IdxState),
    k ∈ st.stored → k ∈ (applyRun fp st tr).stored := by
  intro tr
  induction tr with
  | nil => intro st h; exact h
  | cons x rest ih =>
    intro st h
    unfold applyRun
    rw [List.foldl_cons]
    apply ih
    cases x.2 <;> simp [applyOutcome, h]

theorem applyRun_success_stored (fp : String → String) :
    ∀ (tr : List ((String × String) × Outcome)) (st : IdxState)
      (x : (String × String) × Outcome),
    x ∈ tr → x.2 = Outcome.success → x.1.1 ∈ (applyRun fp st tr).stored := by
  intro tr
  induction tr with
  | nil => intro st x hx; simp at hx
  | cons y rest ih =>
    intro st x hx hs
    rcases List.mem_cons.mp hx with he | ht
    · subst he
      unfold applyRun
      rw [List.foldl_cons]
      apply applyRun_stored_mono
      rw [hs]
      simp [applyOutcome]
    · unfold applyRun
      rw [List.foldl_cons]
      exact ih _ x ht hs

theorem applyRun_success_hash (fp : String → String) :
    ∀ (tr : List ((String × String) × Outcome)) (st : IdxState)
      (x : (String × String) × Outcome),
    (tr.map (fun y => y.1.1)).Nodup → x ∈ tr → x.2 = Outcome.success →
    dictLookup (applyRun fp st tr).hashes x.1.1 = some (fp x.1.2) := by
  intro tr
  induction tr with
  | nil => intro st x _ hx; simp at hx
  | cons y rest ih =>
    intro st x hnd hx hs
    simp only [List.map_cons, List.nodup_cons] at hnd
    rcases List.mem_cons.mp hx with he | ht
    · subst he
      unfold applyRun
      rw [List.foldl_cons]
      have hrest : ∀ z ∈ rest, z.1.1 ≠ x.1.1 := by
        intro z hz he
        exact hnd.1 (he ▸ List.mem_map.mpr ⟨z, hz, rfl⟩)
      have := applyRun_hashes_of_ne fp x.1.1 rest (applyOutcome fp st x.1 x.2) hrest
      unfold applyRun at this
      rw [this, hs]
      simp [applyOutcome, dictLookup_dictInsert_self]
    · unfold applyRun
      rw [List.foldl_cons]
      exact ih _ x hnd.2 ht hs

theorem truncAtBreakAux_of_no_failure :
    ∀ (tr : List ((String × String) × Outcome)) (c : ℕ), c < 3 →
    (∀ x ∈ tr, x.2 ≠ Outcome.failure) → truncAtBreakAux c tr = tr := by
  intro tr
  induction tr with
  | nil => intro c _ _; rfl
  | cons x rest ih =>
    intro c hc hnf
    have hx : x.2 ≠ Outcome.failure := hnf x (by simp)
    have hlt : streakStep c x.2 < 3 := by
      cases h2 : x.2 with
      | success => simp [streakStep]
      | failure => exact absurd h2 hx
      | blankFile => simpa [streakStep] using hc
      | skippedFile => simpa [streakStep] using hc
    unfold truncAtBreakAux
    rw [if_neg (by omega)]
    rw [ih _ hlt (fun y hy => hnf y (by simp [hy]))]

theorem hitsThreeAux_of_no_failure :
    ∀ (os : List Outcome) (c : ℕ), c < 3 →
    (∀ o ∈ os, o ≠ Outcome.failure) → hitsThreeAux c os = false := by
  intro os
  induction os with
  | nil => intro c _ _; rfl
  | cons o rest ih =>
    intro c hc hnf
    have ho : o ≠ Outcome.failure := hnf o (by simp)
    have hlt : streakStep c o < 3 := by
      cases h2 : o with
      | success => simp [streakStep]
      | failure => exact absurd h2 ho
      | blankFile => simpa [streakStep] using hc
      | skippedFile => simpa [streakStep] using hc
    unfold hitsThreeAux
    rw [if_neg (by omega)]
    exact ih _ hlt (fun y hy => hnf y (by simp [hy]))

/-- C7 counterexample: in the git indexer, three consecutive malformed commit
entries are three consecutive per-item failures (the failure count reaches 3)
yet the run does not halt — malformed entries bypass the breaker. -/
theorem git_malformed_failures_do_not_halt :
    (gitIndexRun (fun _ => true) [none, none, none] ⟨[], []⟩ 0 ⟨0, 0, 0⟩).stats.failed = 3 ∧
    (gitIndexRun (fun _ => true) [none, none, none] ⟨[], []⟩ 0 ⟨0, 0, 0⟩).halted = false :=
  ⟨rfl, rfl⟩

/-- C7 (amended): a directory-indexing run halts early exactly when the
spec-modelled circuit breaker (3 consecutive *indexing* failures, counter
reset by every successful index, unchanged by skips and blank files) fires on
the breaker-free trace; the processed trace is that trace truncated at the
breaker point; the final state — which the trailing `persist`/`_save_hashes`
write out — still holds the store record and hash-map entry of every item
successfully indexed before the halt.  In the git indexer a malformed commit
entry counts as a failed item but neither advances nor resets the breaker
(see the counterexample). -/
theorem circuit_breaker_run (fp : String → String) (embedOk : String → String → Bool)
    (items : List (String × String)) (st₀ : IdxState)
    (hnd : (items.map (·.1)).Nodup) :
    (indexDirectory fp embedOk items st₀).trace =
      truncAtBreak (fullRun fp embedOk items st₀) ∧
    (indexDirectory fp embedOk items st₀).halted =
      hitsThree ((fullRun fp embedOk items st₀).map (·.2)) ∧
    (indexDirectory fp embedOk items st₀).consec =
      streak ((indexDirectory fp embedOk items st₀).trace.map (·.2)) ∧
    (indexDirectory fp embedOk items st₀).state =
      applyRun fp st₀ (indexDirectory fp embedOk items st₀).trace ∧
    (∀ x ∈ (indexDirectory fp embedOk items st₀).trace, x.2 = Outcome.success →
      x.1.1 ∈ (indexDirectory fp embedOk items st₀).state.stored ∧
      dictLookup (indexDirectory fp embedOk items st₀).state.hashes x.1.1 =
        some (fp x.1.2)) ∧
    (∀ (gOk : Commit → Bool) (gst : GitState),
      (gitIndexRun gOk (List.replicate 3 none) gst 0 ⟨0, 0, 0⟩).halted = false ∧
      (gitIndexRun gOk (List.replicate 3 none) gst 0 ⟨0, 0, 0⟩).stats.failed = 3) := by
  have hspec := indexRun_spec fp embedOk items st₀ 0 ⟨0, 0, 0⟩ [] (by omega)
  have htr : (indexDirectory fp embedOk items st₀).trace =
      truncAtBreak (fullRun fp embedOk items st₀) := by
    unfold indexDirectory truncAtBreak
    rw [hspec.1, List.nil_append]
  have hndtr : ((indexDirectory fp embedOk items st₀).trace.map
      (fun y => y.1.1)).Nodup := by
    rw [htr]
    have hsub := (truncAtBreakAux_sublist (fullRun fp embedOk items st₀) 0).map
      (fun y => y.1.1)
    apply List.Nodup.sublist hsub
    have : (fullRun fp embedOk items st₀).map (fun y => y.1.1) =
        items.map (·.1) := by
      rw [show (fun y : (String × String) × Outcome => y.1.1) =
          (fun p : String × String => p.1) ∘ (fun y : (String × String) × Outcome => y.1)
        from rfl]
      rw [← List.map_map, fullRun_map_fst]
    rw [this]
    exact hnd
  have hstate : (indexDirectory fp embedOk items st₀).state =
      applyRun fp st₀ (indexDirectory fp embedOk items st₀).trace := by
    unfold indexDirectory
    rw [hspec.2.2.2.1, hspec.1, List.nil_append]
  refine ⟨htr, ?_, ?_, hstate, ?_, ?_⟩
  · unfold indexDirectory hitsThree
    exact hspec.2.1
  · unfold indexDirectory streak
    rw [hspec.2.2.1, hspec.1, List.nil_append]
  · intro x hx hs
    constructor
    · rw [hstate]
      exact applyRun_success_stored fp _ st₀ x hx hs
    · rw [hstate]
      exact applyRun_success_hash fp _ st₀ x hndtr hx hs
  · intro gOk gst
    exact ⟨rfl, rfl⟩

/-- Witness for C7 on a concrete one-item run. -/
theorem circuit_breaker_run_witness :
    (indexDirectory (fun s => s) (fun _ _ => false) [("a.py", "x")] ⟨[], []⟩).halted =
      hitsThree ((fullRun (fun s => s) (fun _ _ => false) [("a.py", "x")] ⟨[], []⟩).map
        (·.2)) :=
  (circuit_breaker_run (fun s => s) (fun _ _ => false) [("a.py", "x")] ⟨[], []⟩
    (by simp)).2.1

theorem fullRun_no_failure (fp : String → String) (embedOk : String → String → Bool) :
    ∀ (items : List (String × String)) (st : IdxState),
    (∀ it ∈ items, embedOk it.1 it.2 = true) →
    ∀ x ∈ fullRun fp embedOk items st, x.2 ≠ Outcome.failure := by
  intro items
  induction items with
  | nil => intro st _ x hx; simp [fullRun] at hx
  | cons it rest ih =>
    intro st hok x hx
    unfold fullRun at hx
    rcases List.mem_cons.mp hx with he | ht
    · subst he
      unfold classify
      by_cases hb : isBlank it.2
      · simp [hb]
      · by_cases hs : dictLookup st.hashes it.1 = some (fp it.2)
        · simp [hb, hs]
        · simp [hb, hs, hok it (by simp)]
    · exact ih _ (fun y hy => hok y (by simp [hy])) x ht

theorem fullRun_of_all_hashed (fp : String → String) (embedOk : String → String → Bool) :
    ∀ (items : List (String × String)) (st : IdxState),
    (∀ it ∈ items, ¬isBlank it.2 = true →
      dictLookup st.hashes it.1 = some (fp it.2)) →
    fullRun fp embedOk items st =
      items.map (fun it =>
        (it, if isBlank it.2 then Outcome.blankFile else Outcome.skippedFile)) := by
  intro items
  induction items with
  | nil => intro st _; rfl
  | cons it rest ih =>
    intro st h
    by_cases hb : isBlank it.2
    · have hcl : classify fp embedOk st it = Outcome.blankFile := by
        simp [classify, hb]
      have hap : applyOutcome fp st it Outcome.blankFile = st := rfl
      simp only [fullRun, hcl, hap, List.map_cons, if_pos hb]
      exact congrArg _ (ih st (fun y hy hn => h y (by simp [hy]) hn))
    · have hs := h it (by simp) (by simpa using hb)
      have hcl : classify fp embedOk st it = Outcome.skippedFile := by
        simp [classify, hb, hs]
      have hap : applyOutcome fp st it Outcome.skippedFile = st := rfl
      simp only [fullRun, hcl, hap, List.map_cons, if_neg hb]
      exact congrArg _ (ih st (fun y hy hn => h y (by simp [hy]) hn))

theorem fullRun_establishes_hashes (fp : String → String)
    (embedOk : String → String → Bool) :
    ∀ (items : List (String × String)) (st : IdxState),
    (∀ it ∈ items, embedOk it.1 it.2 = true) →
    (items.map (·.1)).Nodup →
    ∀ it ∈ items, ¬isBlank it.2 = true →
    dictLookup (applyRun fp st (fullRun fp embedOk items st)).hashes it.1 =
      some (fp it.2) := by
  intro items
  induction items with
  | nil => intro st _ _ it hit; simp at hit
  | cons it0 rest ih =>
    intro st hok hnd it hit hnb
    simp only [List.map_cons, List.nodup_cons] at hnd
    have hrestne : ∀ z ∈ fullRun fp embedOk rest (applyOutcome fp st it0
        (classify fp embedOk st it0)), z.1.1 ≠ it0.1 := by
      intro z hz he
      apply hnd.1
      have : z.1 ∈ rest := by
        have hm : z.1 ∈ (fullRun fp embedOk rest (applyOutcome fp st it0
            (classify fp embedOk st it0))).map (·.1) :=
          List.mem_map.mpr ⟨z, hz, rfl⟩
        rw [fullRun_map_fst] at hm
        exact hm
      exact he ▸ List.mem_map.mpr ⟨z.1, this, rfl⟩
    rcases List.mem_cons.mp hit with he | ht
    · subst he
      unfold fullRun applyRun
      rw [List.foldl_cons]
      have hlook := applyRun_hashes_of_ne fp it.1
        (fullRun fp embedOk rest (applyOutcome fp st it (classify fp embedOk st it)))
        (applyOutcome fp st it (classify fp embedOk st it)) hrestne
      unfold applyRun at hlook
      rw [hlook]
      unfold classify
      rw [if_neg (by simpa using hnb)]
      by_cases hs : dictLookup st.hashes it.1 = some (fp it.2)
      · rw [if_pos hs]
        simpa [applyOutcome] using hs
      · rw [if_neg hs, if_pos (hok it (by simp))]
        simp [applyOutcome, dictLookup_dictInsert_self]
    · unfold fullRun applyRun
      rw [List.foldl_cons]
      have := ih (applyOutcome fp st it0 (classify fp embedOk st it0))
        (fun y hy => hok y (by simp [hy])) hnd.2 it ht hnb
      unfold applyRun at this
      exact this

theorem applyRun_no_success (fp : String → String) :
    ∀ (tr : List ((String × String) × Outcome)) (st : IdxState),
    (∀ x ∈ tr, x.2 ≠ Outcome.success) → applyRun fp st tr = st := by
  intro tr
  induction tr with
  | nil => intro st _; rfl
  | cons x rest ih =>
    intro st h
    unfold applyRun
    rw [List.foldl_cons]
    have hx : applyOutcome fp st x.1 x.2 = st := by
      cases h2 : x.2 <;> first
        | rfl
        | exact absurd h2 (h x (by simp))
    rw [hx]
    exact ih st (fun y hy => h y (by simp [hy]))

theorem skipTrace_counts (items : List (String × String)) :
    (items.map (fun it =>
      if isBlank it.2 then Outcome.blankFile else Outcome.skippedFile)).count
        Outcome.success = 0 ∧
    (items.map (fun it =>
      if isBlank it.2 then Outcome.blankFile else Outcome.skippedFile)).count
        Outcome.failure = 0 ∧
    (items.map (fun it =>
      if isBlank it.2 then Outcome.blankFile else Outcome.skippedFile)).count
        Outcome.skippedFile =
      (items.filter (fun it => ¬isBlank it.2)).length := by
  induction items with
  | nil => simp
  | cons it rest ih =>
    by_cases hb : isBlank it.2 <;>
      simp [List.count_cons, List.filter_cons, hb, ih.1, ih.2.1, ih.2.2]

/-- C6 counterexample: re-running directory indexing over an unmodified file
set containing a whitespace-only file does *not* report a skip count equal to
the file count — the blank file is passed over without being counted, so the
second run reports `skipped = 0` for a one-file set. -/
theorem reindex_blank_file_not_counted :
    (indexDirectory (fun s => s) (fun _ _ => true) [("a.py", " ")]
        (indexDirectory (fun s => s) (fun _ _ => true) [("a.py", " ")]
          ⟨[], []⟩).state).stats.skipped = 0 ∧
    ([("a.py", " ")] : List (String × String)).length = 1 :=
  ⟨rfl, rfl⟩

/-- C6 (amended): re-running directory indexing on an unmodified file set
(same paths, same contents, distinct paths, every item embeddable) reports
zero newly-added items, zero failures, and a skip count equal to the number
of files with *non-blank* content (whitespace-only files are passed over
without being counted); the indexer state — hash map and stored records — is
unchanged, and the run does not halt early. -/
theorem reindex_unmodified_skips (fp : String → String)
    (embedOk : String → String → Bool) (items : List (String × String))
    (hok : ∀ it ∈ items, embedOk it.1 it.2 = true)
    (hnd : (items.map (·.1)).Nodup) :
    (indexDirectory fp embedOk items
        (indexDirectory fp embedOk items ⟨[], []⟩).state).stats.added = 0 ∧
    (indexDirectory fp embedOk items
        (indexDirectory fp embedOk items ⟨[], []⟩).state).stats.failed = 0 ∧
    (indexDirectory fp embedOk items
        (indexDirectory fp embedOk items ⟨[], []⟩).state).stats.skipped =
      (items.filter (fun it => ¬isBlank it.2)).length ∧
    (indexDirectory fp embedOk items
        (indexDirectory fp embedOk items ⟨[], []⟩).state).state =
      (indexDirectory fp embedOk items ⟨[], []⟩).state ∧
    (indexDirectory fp embedOk items
        (indexDirectory fp embedOk items ⟨[], []⟩).state).halted = false := by
  have hs1 := indexRun_spec fp embedOk items ⟨[], []⟩ 0 ⟨0, 0, 0⟩ [] (by omega)
  have hnf1 := fullRun_no_failure fp embedOk items ⟨[], []⟩ hok
  have htr1 := truncAtBreakAux_of_no_failure (fullRun fp embedOk items ⟨[], []⟩)
    0 (by omega) hnf1
  have hstate1 : (indexDirectory fp embedOk items ⟨[], []⟩).state =
      applyRun fp ⟨[], []⟩ (fullRun fp embedOk items ⟨[], []⟩) := by
    unfold indexDirectory
    rw [hs1.2.2.2.1, htr1]
  have hhash : ∀ it ∈ items, ¬isBlank it.2 = true →
      dictLookup (indexDirectory fp embedOk items ⟨[], []⟩).state.hashes it.1 =
        some (fp it.2) := by
    intro it hit hnb
    rw [hstate1]
    exact fullRun_establishes_hashes fp embedOk items ⟨[], []⟩ hok hnd it hit hnb
  have hfull2 := fullRun_of_all_hashed fp embedOk items
    (indexDirectory fp embedOk items ⟨[], []⟩).state hhash
  have hnf2 : ∀ x ∈ fullRun fp embedOk items
      (indexDirectory fp embedOk items ⟨[], []⟩).state,
      x.2 ≠ Outcome.failure := by
    rw [hfull2]
    intro x hx
    obtain ⟨it, _, he⟩ := List.mem_map.mp hx
    subst he
    by_cases hb : isBlank it.2 <;> simp [hb]
  have hns2 : ∀ x ∈ fullRun fp embedOk items
      (indexDirectory fp embedOk items ⟨[], []⟩).state,
      x.2 ≠ Outcome.success := by
    rw [hfull2]
    intro x hx
    obtain ⟨it, _, he⟩ := List.mem_map.mp hx
    subst he
    by_cases hb : isBlank it.2 <;> simp [hb]
  have htr2 := truncAtBreakAux_of_no_failure (fullRun fp embedOk items
    (indexDirectory fp embedOk items ⟨[], []⟩).state) 0 (by omega) hnf2
  have hs2 := indexRun_spec fp embedOk items
    (indexDirectory fp embedOk items ⟨[], []⟩).state 0 ⟨0, 0, 0⟩ [] (by omega)
  have hout : (fullRun fp embedOk items
      (indexDirectory fp embedOk items ⟨[], []⟩).state).map (·.2) =
      items.map (fun it =>
        if isBlank it.2 then Outcome.blankFile else Outcome.skippedFile) := by
    rw [hfull2, List.map_map]
    rfl
  have hcounts := skipTrace_counts items
  refine ⟨?_, ?_, ?_, ?_, ?_⟩
  · show (indexRun fp embedOk items _ 0 ⟨0, 0, 0⟩ []).stats.added = 0
    rw [hs2.2.2.2.2]
    simp only [htr2, hout]
    simpa using hcounts.1
  · show (indexRun fp embedOk items _ 0 ⟨0, 0, 0⟩ []).stats.failed = 0
    rw [hs2.2.2.2.2]
    simp only [htr2, hout]
    simpa using hcounts.2.1
  · show (indexRun fp embedOk items _ 0 ⟨0, 0, 0⟩ []).stats.skipped = _
    rw [hs2.2.2.2.2]
    simp only [htr2, hout]
    simpa using hcounts.2.2
  · show (indexRun fp embedOk items _ 0 ⟨0, 0, 0⟩ []).state = _
    rw [hs2.2.2.2.1, htr2]
    exact applyRun_no_success fp _ _ hns2
  · show (indexRun fp embedOk items _ 0 ⟨0, 0, 0⟩ []).halted = false
    rw [hs2.2.1]
    apply hitsThreeAux_of_no_failure _ 0 (by omega)
    intro o ho
    obtain ⟨x, hx, he⟩ := List.mem_map.mp ho
    exact he ▸ hnf2 x hx

/-- Witness for C6 on a concrete one-file set. -/
theorem reindex_unmodified_skips_witness :
    (indexDirectory (fun s => s) (fun _ _ => true) [("a.py", "hello")]
        (indexDirectory (fun s => s) (fun _ _ => true) [("a.py", "hello")]
          ⟨[], []⟩).state).stats.added = 0 :=
  (reindex_unmodified_skips (fun s => s) (fun _ _ => true) [("a.py", "hello")]
    (by simp) (by simp)).1

theorem findBestChunks_length_le_one (sq : ℚ → ℚ) (embed : String → List ℚ)
    (db : VDB) (content filePath : String) (queryVector : List ℚ) :
    (findBestChunksForFile sq embed db content filePath queryVector).1.length ≤ 1 := by
  unfold findBestChunksForFile
  by_cases hsmall : (splitLines content).length ≤ 10
  · rw [if_pos hsmall]
    cases h : firstMeaningful (splitLines content) 0 <;> simp
  · rw [if_neg hsmall]
    simp only [List.length_take]
    omega

/-- C3: for every file the search loop processes, if the cached content has
keyword windows the emitted results are exactly one per kept window, each
with `full_match = true` and the file-level fused score, and the vector store
is untouched; if there is no keyword window, at most one result is emitted,
with `full_match = false` and score the arithmetic mean of the file-level
score and the chosen chunk's similarity score. -/
theorem two_level_per_file_results (sq : ℚ → ℚ) (embed : String → List ℚ)
    (db : VDB) (filePath content : String) (fileScore : ℚ)
    (queryTerms : List String) (queryVector : List ℚ) :
    (findAllWindows content queryTerms 3 ≠ [] →
      (processFile sq embed db filePath content fileScore queryTerms queryVector).1 =
        (findAllWindows content queryTerms 3).map
          (fun w => ⟨filePath, fileScore, w.1, w.2.1, true⟩) ∧
      (processFile sq embed db filePath content fileScore queryTerms queryVector).2 = db ∧
      ∀ r ∈ (processFile sq embed db filePath content fileScore queryTerms
          queryVector).1, r.fullMatch = true ∧ r.score = fileScore) ∧
    (findAllWindows content queryTerms 3 = [] →
      (processFile sq embed db filePath content fileScore queryTerms
        queryVector).1.length ≤ 1 ∧
      ∀ r ∈ (processFile sq embed db filePath content fileScore queryTerms
          queryVector).1, r.fullMatch = false ∧
        ∃ c ∈ (findBestChunksForFile sq embed db content filePath queryVector).1,
          r.score = (fileScore + c.2.2) / 2 ∧ r.line = c.1 ∧ r.snippet = c.2.1) := by
  constructor
  · intro hne
    have hemp : (findAllWindows content queryTerms 3).isEmpty = false := by
      simpa [List.isEmpty_iff] using hne
    simp only [processFile, hemp, Bool.false_eq_true, if_false]
    refine ⟨trivial, trivial, ?_⟩
    intro r hr
    obtain ⟨w, _, he⟩ := List.mem_map.mp hr
    rw [← he]
    exact ⟨rfl, rfl⟩
  · intro he
    have hemp : (findAllWindows content queryTerms 3).isEmpty = true := by
      simp [he]
    simp only [processFile, hemp, if_true]
    constructor
    · rw [List.length_map]
      exact findBestChunks_length_le_one sq embed db content filePath queryVector
    · intro r hr
      obtain ⟨c, hc, hce⟩ := List.mem_map.mp hr
      rw [← hce]
      exact ⟨rfl, c, hc, rfl, rfl, rfl⟩

/-- Witness for C3 on a concrete file whose content matches the query term. -/
theorem two_level_per_file_results_witness :
    findAllWindows "hello world" ["hello"] 3 ≠ [] ∧
    (processFile (fun x => x) (fun _ => []) emptyVDB "f.py" "hello world" (9/10)
        ["hello"] []).2 = emptyVDB :=
  ⟨by decide,
   ((two_level_per_file_results (fun x => x) (fun _ => []) emptyVDB "f.py"
      "hello world" (9/10) ["hello"] []).1 (by decide)).2.1⟩
